import Mathlib

/-!
# Circular restricted three-body problem: model, equilibria and tracer

A shallow embedding of `crtbp.hpp`, `Lagrange.hpp` and `tracer.hpp`.

The program computes with `double`.  The embedding is written once, over any
linearly ordered field `R` that carries the four library functions the program
calls (`sqrt`, `pow`, `cos`, `sin`); the theorems read it over the real numbers,
that is, with exact arithmetic and the exact library functions.
-/

/-- The `<cmath>` functions the program calls on `double`. -/
class DoubleMath (R : Type) where
  /-- `std::sqrt` -/
  sqrt : R → R
  /-- `std::pow` -/
  pow : R → R → R
  /-- `cos` -/
  cos : R → R
  /-- `sin` -/
  sin : R → R

/-- Exact real arithmetic: the ideal reading of `double`. -/
noncomputable instance instDoubleMathReal : DoubleMath ℝ where
  sqrt := Real.sqrt
  pow := fun a b => a ^ b
  cos := Real.cos
  sin := Real.sin

/-- `Vector2d` of `math.hpp`. -/
@[ext]
structure Vector2d (R : Type) where
  x : R
  y : R

/-- `Vector3d` of `math.hpp`. -/
@[ext]
structure Vector3d (R : Type) where
  x : R
  y : R
  z : R

/-- `Vector4d` of `math.hpp`; the components are `x`, `y`, `z`, `w`. -/
@[ext]
structure Vector4d (R : Type) where
  x : R
  y : R
  z : R
  w : R

/-- `Matrix2d` of `math.hpp`; `mij` is the coefficient of row `i`, column `j`. -/
@[ext]
structure Matrix2d (R : Type) where
  m00 : R
  m01 : R
  m10 : R
  m11 : R

section VectorMath

variable {R : Type} [LinearOrderedField R] [DoubleMath R]

namespace Vector2d

/-- Componentwise `a + b`. -/
def add (a b : Vector2d R) : Vector2d R := ⟨a.x + b.x, a.y + b.y⟩

/-- Componentwise `a - b`. -/
def sub (a b : Vector2d R) : Vector2d R := ⟨a.x - b.x, a.y - b.y⟩

/-- Scalar multiple `c * a`. -/
def smul (c : R) (a : Vector2d R) : Vector2d R := ⟨c * a.x, c * a.y⟩

/-- The member `squaredNorm()`. -/
def squaredNorm (a : Vector2d R) : R := a.x * a.x + a.y * a.y

/-- The member `norm()`: the square root of `squaredNorm()`. -/
def norm (a : Vector2d R) : R := DoubleMath.sqrt (squaredNorm a)

/-- The member `normalize()`: divides by the norm when the squared norm is
positive, and leaves the vector alone otherwise. -/
def normalize (a : Vector2d R) : Vector2d R :=
  let z := squaredNorm a
  if 0 < z then ⟨a.x / DoubleMath.sqrt z, a.y / DoubleMath.sqrt z⟩ else a

end Vector2d

namespace Vector4d

/-- Componentwise `a + b`. -/
def add (a b : Vector4d R) : Vector4d R := ⟨a.x + b.x, a.y + b.y, a.z + b.z, a.w + b.w⟩

/-- Scalar multiple `c * a`. -/
def smul (c : R) (a : Vector4d R) : Vector4d R := ⟨c * a.x, c * a.y, c * a.z, c * a.w⟩

end Vector4d

namespace Matrix2d

/-- Matrix-vector product `m * v`. -/
def mulVec (m : Matrix2d R) (v : Vector2d R) : Vector2d R :=
  ⟨m.m00 * v.x + m.m01 * v.y, m.m10 * v.x + m.m11 * v.y⟩

/-- Scalar multiple `c * m`. -/
def smul (c : R) (m : Matrix2d R) : Matrix2d R :=
  ⟨c * m.m00, c * m.m01, c * m.m10, c * m.m11⟩

end Matrix2d

end VectorMath

namespace CRTBP

variable {R : Type} [LinearOrderedField R] [DoubleMath R]

/-- Artificial mass ratio. -/
def mu : R := 0.02

/-- Normalized rotation rate of the two massive bodies. -/
def omega : R := 1.0

/-- Position of the Sun in the co-rotating frame. -/
def Sun : Vector2d R := ⟨-mu, 0⟩

/-- Position of the Earth in the co-rotating frame. -/
def Earth : Vector2d R := ⟨1 - mu, 0⟩

/-- Acceleration of the third body in the gravitational field of the two bodies. -/
def Acceleration (pos : Vector2d R) : Vector2d R :=
  let sun_dir := Vector2d.sub Sun pos
  let earth_dir := Vector2d.sub Earth pos
  Vector2d.add
    (Vector2d.smul ((1 - mu) / DoubleMath.pow (Vector2d.norm sun_dir) 3) sun_dir)
    (Vector2d.smul (mu / DoubleMath.pow (Vector2d.norm earth_dir) 3) earth_dir)

/-- Right-hand side of the equations of motion in the rotating frame. -/
def Direction (state : Vector4d R) : Vector4d R :=
  let pos : Vector2d R := ⟨state.x, state.y⟩
  let vel : Vector2d R := ⟨state.z, state.w⟩
  let omega_cross : Matrix2d R := ⟨0, omega, -omega, 0⟩
  let acc :=
    Vector2d.add
      (Vector2d.add
        (Vector2d.smul (omega * omega) pos)
        (Matrix2d.mulVec (Matrix2d.smul 2 omega_cross) vel))
      (Acceleration pos)
  ⟨vel.x, vel.y, acc.x, acc.y⟩

/-- Pseudo potential at `pos`. -/
def PseudoPotential (pos : Vector2d R) : R :=
  let x := pos.x
  let y := pos.y
  let x2 := x * x
  let y2 := y * y
  mu / DoubleMath.sqrt (y2 + DoubleMath.pow (-x - mu + 1) 2)
    + (1 - mu) / DoubleMath.sqrt (y2 + DoubleMath.pow (-x - mu) 2)
    + (omega * omega * (y2 + x2)) / 2

/-- Spatial gradient of the pseudo potential at `pos`. -/
def PseudoPotentialGrad (pos : Vector2d R) : Vector2d R :=
  let x := pos.x
  let y := pos.y
  let y2 := y * y
  ⟨(mu * (-x - mu + 1)) / DoubleMath.pow (y2 + DoubleMath.pow (-x - mu + 1) 2) 1.5
      + ((1 - mu) * (-x - mu)) / DoubleMath.pow (y2 + DoubleMath.pow (-x - mu) 2) 1.5
      + omega * omega * x,
    -(mu * y) / DoubleMath.pow (y2 + DoubleMath.pow (-x - mu + 1) 2) 1.5
      - ((1 - mu) * y) / DoubleMath.pow (y2 + DoubleMath.pow (-x - mu) 2) 1.5
      + omega * omega * y⟩

/-- Hessian matrix of the pseudo potential at `pos`. -/
def PseudoPotentialHessian (pos : Vector2d R) : Matrix2d R :=
  let x := pos.x
  let y := pos.y
  let y2 := y * y
  let hxx :=
    -mu / DoubleMath.pow (y2 + DoubleMath.pow (-x - mu + 1) 2) 1.5
      + (3 * mu * DoubleMath.pow (-x - mu + 1) 2)
          / DoubleMath.pow (y2 + DoubleMath.pow (-x - mu + 1) 2) 2.5
      - (1 - mu) / DoubleMath.pow (y2 + DoubleMath.pow (-x - mu) 2) 1.5
      + (3 * (1 - mu) * DoubleMath.pow (-x - mu) 2)
          / DoubleMath.pow (y2 + DoubleMath.pow (-x - mu) 2) 2.5
      + omega * omega
  let hxy :=
    -(3 * mu * (-x - mu + 1) * y) / DoubleMath.pow (y2 + DoubleMath.pow (-x - mu + 1) 2) 2.5
      - (3 * (1 - mu) * (-x - mu) * y) / DoubleMath.pow (y2 + DoubleMath.pow (-x - mu) 2) 2.5
  let hyy :=
    -mu / DoubleMath.pow (y2 + DoubleMath.pow (-x - mu + 1) 2) 1.5
      + (3 * mu * y2) / DoubleMath.pow (y2 + DoubleMath.pow (-x - mu + 1) 2) 2.5
      - (1 - mu) / DoubleMath.pow (y2 + DoubleMath.pow (-x - mu) 2) 1.5
      + (3 * (1 - mu) * y2) / DoubleMath.pow (y2 + DoubleMath.pow (-x - mu) 2) 2.5
      + omega * omega
  ⟨hxx, hxy, hxy, hyy⟩

/-- Jacobi constant at `pos` for the parameter `v0`. -/
def JacobiConstant (pos : Vector2d R) (v0 : R) : R := 2 * PseudoPotential pos - v0

/-- The position `(x, y)` is at neither body. -/
def AwayFromBodies (x y : ℝ) : Prop :=
  (⟨x, y⟩ : Vector2d ℝ) ≠ Sun ∧ (⟨x, y⟩ : Vector2d ℝ) ≠ Earth

end CRTBP

namespace LagrangePoints

variable {R : Type} [LinearOrderedField R] [DoubleMath R]

/-- Modelled from the spec: `solve(H, v)`, the linear solve `H.lu().solve(v)` of the external
vector-math library (not in src/), as LU elimination with partial pivoting: the row with
the larger first coefficient in absolute value is the pivot row, the other row is reduced,
and the triangular system is solved backwards. -/
def luSolve (H : Matrix2d R) (v : Vector2d R) : Vector2d R :=
  let swap : Bool := decide (|H.m00| < |H.m10|)
  let a00 := if swap then H.m10 else H.m00
  let a01 := if swap then H.m11 else H.m01
  let a10 := if swap then H.m00 else H.m10
  let a11 := if swap then H.m01 else H.m11
  let c0 := if swap then v.y else v.x
  let c1 := if swap then v.x else v.y
  let l := a10 / a00
  let u11 := a11 - l * a01
  let d1 := c1 - l * c0
  let x1 := d1 / u11
  let x0 := (c0 - a01 * x1) / a00
  ⟨x0, x1⟩

/-- The step `dx` of one pass of the loop of `FindPoint` at `x`. -/
def newtonDx (x : Vector2d R) : Vector2d R :=
  let v := CRTBP.PseudoPotentialGrad x
  let H := CRTBP.PseudoPotentialHessian x
  luSolve H v

/-- The `for` loop of `FindPoint` with `n` passes left, at the iterate `x`: one pass
computes `dx`, replaces `x` by `x - dx`, and breaks when `dx.norm() < 1e-8`. -/
def FindPoint.loop : Nat → Vector2d R → Vector2d R
  | 0, x => x
  | n + 1, x =>
    let dx := newtonDx x
    let x' := Vector2d.sub x dx
    if Vector2d.norm dx < 1e-8 then x' else FindPoint.loop n x'

/-- Newton–Raphson solver on `PseudoPotentialGrad` with its Hessian: at most 10 passes. -/
def FindPoint (x0 : Vector2d R) : Vector2d R := FindPoint.loop 10 x0

/-- The initial guesses of the constructor, for L1 to L5. -/
def guesses : List (Vector2d R) :=
  [⟨0.8, 0.0⟩, ⟨1.2, 0.0⟩, ⟨-1.0, 0.0⟩, ⟨0.5, 0.8⟩, ⟨0.5, -0.8⟩]

/-- The member `lagrangePoints_` after the constructor: `FindPoint` of each guess, pushed
back in the order of the guesses. -/
def lagrangePoints : List (Vector2d R) :=
  (guesses (R := R)).foldl (fun acc x0 => acc ++ [FindPoint x0]) []

/-- One Newton step `x ← x − dx`, as the specification words it. -/
def newtonStep (x : Vector2d R) : Vector2d R := Vector2d.sub x (newtonDx x)

/-- Determinant of a 2×2 matrix. -/
def det (H : Matrix2d R) : R := H.m00 * H.m11 - H.m01 * H.m10

end LagrangePoints

/-- The data a `Tracer` owns: the points and line cells of the trajectory, and the radius
array. -/
structure Tracer (R : Type) where
  points : List (Vector3d R)
  lines : List (Nat × Nat)
  radiusArray : List R

namespace Tracer

variable {R : Type} [LinearOrderedField R] [DoubleMath R]

/-- Max radius of the tube. -/
def MaxRadius : R := 0.01

/-- Number of integration steps. -/
def NumIntegrationSteps : Nat := 1000

/-- Integration step size. -/
def IntegrationStepSize : R := 0.005

/-- The loop of `Update` from index `i` down to 1: `radiusArray[i] = radiusArray[i - 1]`. -/
def Update.shift : Nat → List R → List R
  | 0, arr => arr
  | i + 1, arr => Update.shift i (arr.set (i + 1) (arr.getD i 0))

/-- Rotates the radius array forward by one. -/
def Update (tr : Tracer R) : Tracer R :=
  let n := tr.radiusArray.length
  let last := tr.radiusArray.getD (n - 1) 0
  let arr := Update.shift (n - 1) tr.radiusArray
  { tr with radiusArray := arr.set 0 last }

/-- The speed `vmag` that `Pick` derives at `pos`. -/
def Pick.vmag (pos : Vector2d R) : R :=
  let jacobi_C : R := 3.139855
  let U := CRTBP.PseudoPotential pos
  DoubleMath.sqrt (max (2 * U - jacobi_C) 0.0)

/-- The state `Pick` starts the integration from. -/
def Pick.initialState (pnt : Vector3d R) : Vector4d R :=
  let pos : Vector2d R := ⟨pnt.x, pnt.y⟩
  let vmag := Pick.vmag pos
  let earth : Vector2d R := CRTBP.Earth
  let rel := Vector2d.sub pos earth
  let vel : Vector2d R := Vector2d.normalize ⟨-rel.y, rel.x⟩
  let angle : R := -0.008
  let cs := DoubleMath.cos angle
  let sn := DoubleMath.sin angle
  let vel2 : Vector2d R :=
    Vector2d.normalize ⟨vel.x * cs - vel.y * sn, vel.x * sn + vel.y * cs⟩
  let vel2 := Vector2d.smul vmag vel2
  ⟨pos.x, pos.y, vel2.x, vel2.y⟩

/-- The body of the integration loop of `Pick`: the next state. -/
def Pick.nextState (state : Vector4d R) : Vector4d R :=
  let k1 := CRTBP.Direction state
  let k2 := CRTBP.Direction (Vector4d.add state (Vector4d.smul (IntegrationStepSize / 2.0) k1))
  let k3 := CRTBP.Direction (Vector4d.add state (Vector4d.smul (IntegrationStepSize / 2.0) k2))
  let k4 := CRTBP.Direction (Vector4d.add state (Vector4d.smul IntegrationStepSize k3))
  Vector4d.add state
    (Vector4d.smul (IntegrationStepSize / 6.0)
      (Vector4d.add
        (Vector4d.add (Vector4d.add k1 (Vector4d.smul 2.0 k2)) (Vector4d.smul 2.0 k3)) k4))

/-- The integration loop `for (int i = 1; i < NumIntegrationSteps; ++i)` of `Pick`, from the
counter `i`, with at most `fuel` passes: each pass appends the position of the next state
and the line cell from the previous point. -/
def Pick.integrate : Nat → Nat → Vector4d R → Nat → List (Vector3d R) → List (Nat × Nat) →
    List (Vector3d R) × List (Nat × Nat)
  | 0, _, _, _, points, lines => (points, lines)
  | fuel + 1, i, state, prevId, points, lines =>
    if i < NumIntegrationSteps then
      let state' := Pick.nextState state
      let id := points.length
      Pick.integrate fuel (i + 1) state' id (points ++ [⟨state'.x, state'.y, 0.0⟩])
        (lines ++ [(prevId, id)])
    else (points, lines)

/-- The member `SetNumberOfValues(n)` of the radius array: the first `n` values are kept
and the array is filled up to length `n`. -/
def setNumberOfValues (n : Nat) (arr : List R) : List R :=
  arr.take n ++ List.replicate (n - arr.length) 0

/-- The radius loop `for (i = 0; i < n; ++i)` of `Pick`, from the counter `i`, with at
most `fuel` passes. -/
def Pick.radii (n : Nat) : Nat → Nat → List R → List R
  | 0, _, arr => arr
  | fuel + 1, i, arr =>
    if i < n then
      let maxRadius : R := MaxRadius
      let minRadius : R := 0.002
      let scalar := minRadius + (maxRadius - minRadius) * ((i : R) / (((n : ℤ) - 1 : ℤ) : R))
      Pick.radii n fuel (i + 1) (arr.set i scalar)
    else arr

attribute [irreducible] Pick.integrate Pick.radii

/-- Calculates a trajectory from the picked point.  Both loops get as many passes as their
bound allows: neither stops for lack of fuel. -/
def Pick (tr : Tracer R) (pnt : Vector3d R) : Tracer R :=
  let state := Pick.initialState pnt
  let traj := Pick.integrate NumIntegrationSteps 1 state 0 [⟨state.x, state.y, 0.0⟩] []
  let n := traj.1.length
  let radiusArray := Pick.radii n n 0 (setNumberOfValues n tr.radiusArray)
  { points := traj.1, lines := traj.2, radiusArray := radiusArray }

/-- The constructor: an empty trajectory and radius array, then
`Pick(Vector3d(1.019, -0.008, 0.0))`. -/
def new : Tracer R := Pick ⟨[], [], []⟩ ⟨1.019, -0.008, 0.0⟩

/-- One classical Runge–Kutta step of size `h` on the field `f`, as the specification
words it: `s' = s + h/6·(k1 + 2·k2 + 2·k3 + k4)`. -/
def rk4Step (f : Vector4d R → Vector4d R) (h : R) (s : Vector4d R) : Vector4d R :=
  let k1 := f s
  let k2 := f (Vector4d.add s (Vector4d.smul (h / 2) k1))
  let k3 := f (Vector4d.add s (Vector4d.smul (h / 2) k2))
  let k4 := f (Vector4d.add s (Vector4d.smul h k3))
  Vector4d.add s
    (Vector4d.smul (h / 6)
      (Vector4d.add (Vector4d.add (Vector4d.add k1 (Vector4d.smul 2 k2)) (Vector4d.smul 2 k3)) k4))

end Tracer

/-- The scalars of the member `m_imageData`: `m_imageData i j` is the value that
`GetScalarPointer(i, j, 0)` points to. -/
structure JacobiConstant (R : Type) where
  m_imageData : Nat → Nat → R

namespace JacobiConstant

variable {R : Type} [LinearOrderedField R] [DoubleMath R]

/-- Left bound of the sampled rectangle. -/
def X_MIN : R := -2.0

/-- Right bound of the sampled rectangle. -/
def X_MAX : R := 2.0

/-- Lower bound of the sampled rectangle. -/
def Y_MIN : R := -2.0

/-- Upper bound of the sampled rectangle. -/
def Y_MAX : R := 2.0

/-- The write `*pixel = value` through `pixel = GetScalarPointer(i, j, 0)`. -/
def setPixel (img : Nat → Nat → R) (i j : Nat) (value : R) : Nat → Nat → R :=
  fun i' j' => if i' = i ∧ j' = j then value else img i' j'

/-- The position `pos` that the body of the loops of `SampleField` builds for the cell
`(i, j)`. -/
def SampleField.pos (m_resolution i j : Nat) : Vector2d R :=
  let x := X_MIN + (i : R) * (X_MAX - X_MIN) / (((m_resolution : ℤ) - 1 : ℤ) : R)
  let y := Y_MIN + (j : R) * (Y_MAX - Y_MIN) / (((m_resolution : ℤ) - 1 : ℤ) : R)
  ⟨x, y⟩

/-- The loops `for (j = 0; j < m_resolution; ++j) for (i = 0; i < m_resolution; ++i)` of
`SampleField`, for a given resolution. -/
def SampleField.loops (m_resolution : Nat) (img : Nat → Nat → R) : Nat → Nat → R :=
  (List.range m_resolution).foldl
    (fun img j =>
      (List.range m_resolution).foldl
        (fun img i =>
          let pos := SampleField.pos m_resolution i j
          let jacobiValue := CRTBP.JacobiConstant pos 0
          setPixel img i j jacobiValue)
        img)
    img

/-- Fills the image data with the Jacobi constant at zero speed. -/
def SampleField (self : JacobiConstant R) : JacobiConstant R :=
  let m_resolution := 50
  ⟨SampleField.loops m_resolution self.m_imageData⟩

end JacobiConstant

/-! ## Binary64 arithmetic

The program computes with `double`.  Where a statement depends on the rounding, the computation
is followed in IEEE 754 binary64, round to nearest, ties to even.  A finite `double` is kept as
a sign and a dyadic fraction `num / den` in lowest terms, `den` a power of two.  Every operation
forms its exact result (for `/` and `sqrt` a truncation to at least 56 significant bits, with a
sticky bit below) and rounds it to 53 significant bits; no two operations are fused.  All values
met in `SampleField` are far from overflow and underflow, so the exponent range is left
unbounded.  The arithmetic on the naturals is written with `Nat.add`, `Nat.mul`, ... and without
branches, the form that the kernel evaluates fastest; `Nat.sub` is the truncated subtraction. -/

/-- A finite `double`: the dyadic fraction `num / den`, negated if `neg`. -/
structure Double where
  neg : Bool
  num : ℕ
  den : ℕ

namespace Binary64

/-- The rational that a `double` stands for. -/
def toRat (a : Double) : ℚ :=
  if a.neg then -((a.num : ℚ) / (a.den : ℚ)) else (a.num : ℚ) / (a.den : ℚ)

/-- The number `1` if `a ≤ b`, else `0`. -/
def le01 (a b : ℕ) : ℕ := Nat.sub 1 (Nat.sub a b)

/-- The number `1` if `a ≠ 0`, else `0`. -/
def ne01 (a : ℕ) : ℕ := Nat.sub 1 (Nat.sub 1 a)

/-- One step of the search for the binary logarithm: `acc + t` if `2^(acc + t) ≤ n`,
else `acc`. -/
def log2Step (n t acc : ℕ) : ℕ :=
  Nat.add acc (Nat.mul t (Nat.sub 1 (Nat.sub (Nat.pow 2 (Nat.add acc t)) n)))

/-- The binary logarithm of `n`, for `1 ≤ n < 2^2048`: the greatest `k` with `2^k ≤ n`, found
bit by bit from the top; `0` for `n = 0`. -/
def log2 (n : ℕ) : ℕ :=
  log2Step n 1 (log2Step n 2 (log2Step n 4 (log2Step n 8 (log2Step n 16 (log2Step n 32
    (log2Step n 64 (log2Step n 128 (log2Step n 256 (log2Step n 512 (log2Step n 1024 0))))))))))

/-- The nearest integer to `N / D`, ties to even: the quotient `q`, plus one if the remainder
`r` has `D < 2 r`, or `D = 2 r` and `q` is odd. -/
def nearest (N D : ℕ) : ℕ :=
  Nat.add (Nat.div N D)
    (ne01 (Nat.add (Nat.sub (Nat.mul 2 (Nat.mod N D)) D)
      (Nat.mul (le01 D (Nat.mul 2 (Nat.mod N D))) (Nat.mod (Nat.div N D) 2))))

/-- The weight `2^(log2 n - 52)` of the last of the 53 leading bits of `n`; `1` if `n` has at
most 53 bits. -/
def ulp (n : ℕ) : ℕ := Nat.pow 2 (Nat.sub (log2 n) 52)

/-- The natural `n` rounded to 53 significant bits, to nearest, ties to even. -/
def round53 (n : ℕ) : ℕ := Nat.mul (nearest n (ulp n)) (ulp n)

/-- The nearest `double`, ties to even, to the fraction `num / den` with `den` a power of
two: the numerator is rounded to 53 bits and the fraction reduced to lowest terms. -/
def round (a : Double) : Double :=
  ⟨a.neg, Nat.div (round53 a.num) (Nat.gcd (round53 a.num) a.den),
    Nat.div a.den (Nat.gcd (round53 a.num) a.den)⟩

/-- The conversion of an `int` to `double`, also the `double` of a literal such as `2.0`. -/
def ofInt : ℤ → Double
  | Int.ofNat n => round ⟨false, n, 1⟩
  | Int.negSucc n => round ⟨true, Nat.succ n, 1⟩

/-- The operator unary `-` on `double`. -/
def neg (a : Double) : Double := ⟨!a.neg, a.num, a.den⟩

/-- The exact sum of two `double`s, over the product of the denominators: the sum of the
numerators for equal signs, else their difference with the sign of the larger. -/
def addExact (a b : Double) : Double :=
  cond (xor a.neg b.neg)
    (cond (Nat.ble (Nat.mul b.num a.den) (Nat.mul a.num b.den))
      ⟨a.neg, Nat.sub (Nat.mul a.num b.den) (Nat.mul b.num a.den), Nat.mul a.den b.den⟩
      ⟨b.neg, Nat.sub (Nat.mul b.num a.den) (Nat.mul a.num b.den), Nat.mul a.den b.den⟩)
    ⟨a.neg, Nat.add (Nat.mul a.num b.den) (Nat.mul b.num a.den), Nat.mul a.den b.den⟩

/-- The operator `+` on `double`. -/
def add (a b : Double) : Double := round (addExact a b)

/-- The operator `-` on `double`. -/
def sub (a b : Double) : Double := add a (neg b)

/-- The operator `*` on `double`. -/
def mul (a b : Double) : Double :=
  round ⟨xor a.neg b.neg, Nat.mul a.num b.num, Nat.mul a.den b.den⟩

/-- The power of two `2^t` that gives the quotient `N * 2^t / D` at least 56 bits. -/
def divScale (N D : ℕ) : ℕ := Nat.pow 2 (Nat.sub (Nat.add 56 (log2 D)) (log2 N))

/-- The quotient `N / D` of naturals as a numerator over `2 * divScale N D`: the truncated
quotient of `N * 2^t` by `D`, doubled, with a last bit set if the division left a remainder. -/
def divNum (N D : ℕ) : ℕ :=
  Nat.add (Nat.mul 2 (Nat.div (Nat.mul N (divScale N D)) D))
    (ne01 (Nat.mod (Nat.mul N (divScale N D)) D))

/-- The operator `/` on `double`, for a divisor that is not zero: the quotient of
`a.num * b.den` by `b.num * a.den`, with the sign of the two. -/
def div (a b : Double) : Double :=
  round ⟨xor a.neg b.neg, divNum (Nat.mul a.num b.den) (Nat.mul b.num a.den),
    Nat.mul 2 (divScale (Nat.mul a.num b.den) (Nat.mul b.num a.den))⟩

/-- One step of the Newton iteration for the integer square root of `n`, from above: the
smaller of `x` and `(x + n / x) / 2`. -/
def isqrtStep (n x : ℕ) : ℕ :=
  Nat.sub x (Nat.sub x (Nat.div (Nat.add x (Nat.div n x)) 2))

/-- Four steps of the Newton iteration. -/
def isqrtStep4 (n x : ℕ) : ℕ := isqrtStep n (isqrtStep n (isqrtStep n (isqrtStep n x)))

/-- The integer square root of `n`, for `n < 2^2048`: the greatest `r` with `r * r ≤ n`, by 16
steps of the Newton iteration from the power of two above the root. -/
def isqrt (n : ℕ) : ℕ :=
  isqrtStep4 n (isqrtStep4 n (isqrtStep4 n (isqrtStep4 n
    (Nat.pow 2 (Nat.add (Nat.div (log2 n) 2) 1)))))

/-- The exponent `k` or `k + 1` that makes the denominator `2^k` an even power of two. -/
def evenExp (den : ℕ) : ℕ := Nat.add (log2 den) (Nat.mod (log2 den) 2)

/-- The numerator of `num / den` over the even power of two `2^(evenExp den)`. -/
def evenNum (a : Double) : ℕ := Nat.mul a.num (Nat.pow 2 (Nat.mod (log2 a.den) 2))

/-- The exponent `t` for which `n * 4^t` has a root of at least 56 bits. -/
def sqrtShift (n : ℕ) : ℕ := Nat.div (Nat.sub 112 (log2 n)) 2

/-- The radicand of `sqrt`, scaled: `evenNum a * 4^t`. -/
def sqrtArg (a : Double) : ℕ := Nat.mul (evenNum a) (Nat.pow 4 (sqrtShift (evenNum a)))

/-- The function `std::sqrt` on a `double` that is not negative, correctly rounded.  The root
of `num / den` is the root of `sqrtArg a` over `2^(evenExp den / 2 + t)`; it is kept as the
integer square root, doubled, with a last bit set if the root is not exact, over twice that
power of two, and rounded. -/
def sqrt (a : Double) : Double :=
  round ⟨false,
    Nat.add (Nat.mul 2 (isqrt (sqrtArg a)))
      (ne01 (Nat.sub (sqrtArg a) (Nat.mul (isqrt (sqrtArg a)) (isqrt (sqrtArg a))))),
    Nat.mul 2 (Nat.pow 2 (Nat.add (Nat.div (evenExp a.den) 2) (sqrtShift (evenNum a))))⟩

/-- The call `pow(a, 2)`, taken as the product `a * a`: the square, rounded to the nearest
`double`. -/
def sq (a : Double) : Double := mul a a

/-- Whether two `double`s are the same fraction with the same sign. -/
def same (a b : Double) : Bool :=
  (a.neg == b.neg) && (Nat.beq a.num b.num && Nat.beq a.den b.den)

/-- Whether two `double`s that are not negative differ by at most `1 / 2^k`: with `x / d` and
`y / d` the two over their common denominator, whether `|x - y| * 2^k ≤ d`. -/
def within (k : ℕ) (a b : Double) : Bool :=
  (!a.neg && !b.neg) && ((Nat.ble 1 a.den && Nat.ble 1 b.den) &&
    Nat.ble
      (Nat.mul
        (Nat.add (Nat.sub (Nat.mul a.num b.den) (Nat.mul b.num a.den))
          (Nat.sub (Nat.mul b.num a.den) (Nat.mul a.num b.den)))
        (Nat.pow 2 k))
      (Nat.mul a.den b.den))

end Binary64

namespace CRTBP

/-- The constant `mu = 0.02` as a `double`: the nearest `double` to `2 / 100`. -/
def mu64 : Double := Binary64.div (Binary64.ofInt 2) (Binary64.ofInt 100)

/-- The constant `omega = 1.0` as a `double`. -/
def omega64 : Double := Binary64.ofInt 1

/-- The function `PseudoPotential` in binary64 arithmetic, operation by operation, on
`pos = (x, y)`. -/
def PseudoPotential64 (x y : Double) : Double :=
  let x2 := Binary64.mul x x
  let y2 := Binary64.mul y y
  Binary64.add
    (Binary64.add
      (Binary64.div mu64
        (Binary64.sqrt
          (Binary64.add y2
            (Binary64.sq
              (Binary64.add (Binary64.sub (Binary64.neg x) mu64) (Binary64.ofInt 1))))))
      (Binary64.div (Binary64.sub (Binary64.ofInt 1) mu64)
        (Binary64.sqrt (Binary64.add y2 (Binary64.sq (Binary64.sub (Binary64.neg x) mu64))))))
    (Binary64.div (Binary64.mul (Binary64.mul omega64 omega64) (Binary64.add y2 x2))
      (Binary64.ofInt 2))

/-- The function `JacobiConstant` in binary64 arithmetic, on `pos = (x, y)`. -/
def JacobiConstant64 (x y v0 : Double) : Double :=
  Binary64.sub (Binary64.mul (Binary64.ofInt 2) (PseudoPotential64 x y)) v0

end CRTBP

namespace JacobiConstant

/-- Left bound of the sampled rectangle, the `double` `-2.0`. -/
def X_MIN64 : Double := Binary64.ofInt (-2)

/-- Right bound of the sampled rectangle, the `double` `2.0`. -/
def X_MAX64 : Double := Binary64.ofInt 2

/-- Lower bound of the sampled rectangle, the `double` `-2.0`. -/
def Y_MIN64 : Double := Binary64.ofInt (-2)

/-- Upper bound of the sampled rectangle, the `double` `2.0`. -/
def Y_MAX64 : Double := Binary64.ofInt 2

/-- The abscissa `x` that the body of the loops of `SampleField` builds for the column `i`, in
binary64 arithmetic: `X_MIN + i * (X_MAX - X_MIN) / (m_resolution - 1)`, the two `int`s `i`
and `m_resolution - 1` converted to `double`. -/
def SampleField.x64 (m_resolution i : Nat) : Double :=
  Binary64.add X_MIN64
    (Binary64.div (Binary64.mul (Binary64.ofInt i) (Binary64.sub X_MAX64 X_MIN64))
      (Binary64.ofInt ((m_resolution : ℤ) - 1)))

/-- The ordinate `y` that the body of the loops of `SampleField` builds for the row `j`, in
binary64 arithmetic: `Y_MIN + j * (Y_MAX - Y_MIN) / (m_resolution - 1)`, the two `int`s `j`
and `m_resolution - 1` converted to `double`. -/
def SampleField.y64 (m_resolution j : Nat) : Double :=
  Binary64.add Y_MIN64
    (Binary64.div (Binary64.mul (Binary64.ofInt j) (Binary64.sub Y_MAX64 Y_MIN64))
      (Binary64.ofInt ((m_resolution : ℤ) - 1)))

/-- The write `*pixel = value` through `pixel = GetScalarPointer(i, j, 0)`, on an image of
`double` scalars. -/
def setPixel64 (img : Nat → Nat → Double) (i j : Nat) (value : Double) : Nat → Nat → Double :=
  fun i' j' => if i' = i ∧ j' = j then value else img i' j'

/-- The loops `for (j = 0; j < m_resolution; ++j) for (i = 0; i < m_resolution; ++i)` of
`SampleField` in binary64 arithmetic, for a given resolution. -/
def SampleField.loops64 (m_resolution : Nat) (img : Nat → Nat → Double) :
    Nat → Nat → Double :=
  (List.range m_resolution).foldl
    (fun img j =>
      (List.range m_resolution).foldl
        (fun img i =>
          let x := SampleField.x64 m_resolution i
          let y := SampleField.y64 m_resolution j
          let jacobiValue := CRTBP.JacobiConstant64 x y (Binary64.ofInt 0)
          setPixel64 img i j jacobiValue)
        img)
    img

/-- The function `SampleField` in binary64 arithmetic, on the scalars of the image. -/
def SampleField64 (img : Nat → Nat → Double) : Nat → Nat → Double :=
  let m_resolution := 50
  SampleField.loops64 m_resolution img

/-- Whether the ordinate that `SampleField` computes for the row `49 - j` is, as a `double`,
the negative of the one it computes for the row `j`. -/
def SampleField.mirrorRow (j : Nat) : Bool :=
  Binary64.same (SampleField.y64 50 (50 - 1 - j)) (Binary64.neg (SampleField.y64 50 j))

/-- Whether the values that `SampleField` computes for the cell `(i, j)` and for its mirror cell
`(i, 49 - j)` differ by at most `2^-45`. -/
def SampleField.mirrorClose (i j : Nat) : Bool :=
  Binary64.within 45
    (CRTBP.JacobiConstant64 (SampleField.x64 50 i) (SampleField.y64 50 j) (Binary64.ofInt 0))
    (CRTBP.JacobiConstant64 (SampleField.x64 50 i) (SampleField.y64 50 (50 - 1 - j))
      (Binary64.ofInt 0))

end JacobiConstant

/-! ## Interval arithmetic with rational endpoints

Used to follow the Newton iterates of `FindPoint`: every operation returns an interval
that contains the exact real result, with endpoints rounded outwards to 40 decimals. -/

/-- A closed interval with rational endpoints. -/
structure Ival where
  lo : ℚ
  hi : ℚ

namespace Ival

/-- Rounds down to 40 decimals. -/
def rdown (q : ℚ) : ℚ := (⌊q * 10 ^ 40⌋ : ℤ) / 10 ^ 40

/-- Rounds up to 40 decimals. -/
def rup (q : ℚ) : ℚ := (⌈q * 10 ^ 40⌉ : ℤ) / 10 ^ 40

/-- The interval that holds only `q`. -/
def point (q : ℚ) : Ival := ⟨q, q⟩

/-- Sum of two intervals. -/
def add (a b : Ival) : Ival := ⟨a.lo + b.lo, a.hi + b.hi⟩

/-- Opposite of an interval. -/
def neg (a : Ival) : Ival := ⟨-a.hi, -a.lo⟩

/-- Difference of two intervals. -/
def sub (a b : Ival) : Ival := ⟨a.lo - b.hi, a.hi - b.lo⟩

/-- Product of two intervals. -/
def mul (a b : Ival) : Ival :=
  ⟨rdown (min (min (a.lo * b.lo) (a.lo * b.hi)) (min (a.hi * b.lo) (a.hi * b.hi))),
    rup (max (max (a.lo * b.lo) (a.lo * b.hi)) (max (a.hi * b.lo) (a.hi * b.hi)))⟩

/-- Inverse of an interval that does not contain zero. -/
def inv (a : Ival) : Ival := ⟨rdown a.hi⁻¹, rup a.lo⁻¹⟩

/-- The interval does not contain zero. -/
def invOk (a : Ival) : Bool := decide (0 < a.lo) || decide (a.hi < 0)

/-- Absolute value of an interval. -/
def abs (a : Ival) : Ival :=
  if 0 ≤ a.lo then a else if a.hi ≤ 0 then neg a else ⟨0, max (-a.lo) a.hi⟩

/-- Heron iteration from above towards the square root of `q`. -/
def heron (q : ℚ) : Nat → ℚ → ℚ
  | 0, x => x
  | n + 1, x => heron q n (rup ((x + q / x) / 2))

/-- An upper approximation of the square root of `q`. -/
def sqrtUp (q : ℚ) : ℚ := heron q 12 (max q 1)

/-- Square root of an interval: the endpoints are candidates, checked by `sqrtOk`. -/
def sqrt (a : Ival) : Ival := ⟨rdown (a.lo / sqrtUp a.lo), sqrtUp a.hi⟩

/-- The endpoints of `sqrt a` enclose the square roots of the points of `a`. -/
def sqrtOk (a : Ival) : Bool :=
  decide (0 ≤ (sqrt a).lo) && decide ((sqrt a).lo * (sqrt a).lo ≤ a.lo)
    && decide (0 ≤ (sqrt a).hi) && decide (a.hi ≤ (sqrt a).hi * (sqrt a).hi)

/-- The real `x` lies in the interval. -/
def Mem (x : ℝ) (a : Ival) : Prop := (a.lo : ℝ) ≤ x ∧ x ≤ (a.hi : ℝ)

end Ival

/-- A box: an interval for each coordinate. -/
structure IVec where
  x : Ival
  y : Ival

/-- A 2×2 matrix of intervals. -/
structure IMat where
  m00 : Ival
  m01 : Ival
  m10 : Ival
  m11 : Ival

namespace LagrangePoints

/-- Enclosures of the quantities that gradient and Hessian share on the box `X × Y`:
`a = −x − μ + 1`, `b = −x − μ`, the inverse cubes `k1`, `k2` and the inverse fifth powers
`q1`, `q2` of the two distances; `ok` tells that the square roots and inverses are
enclosed. -/
structure Kernels where
  a : Ival
  b : Ival
  k1 : Ival
  k2 : Ival
  q1 : Ival
  q2 : Ival
  ok : Bool

/-- The shared quantities on the box `X × Y`. -/
def kernelsI (X Y : Ival) : Kernels :=
  let a := Ival.add (Ival.sub (Ival.neg X) (Ival.point (1 / 50))) (Ival.point 1)
  let b := Ival.sub (Ival.neg X) (Ival.point (1 / 50))
  let y2 := Ival.mul Y Y
  let s1 := Ival.add y2 (Ival.mul a a)
  let s2 := Ival.add y2 (Ival.mul b b)
  let r1 := Ival.sqrt s1
  let r2 := Ival.sqrt s2
  let c1 := Ival.mul r1 (Ival.mul r1 r1)
  let c2 := Ival.mul r2 (Ival.mul r2 r2)
  let f1 := Ival.mul c1 (Ival.mul r1 r1)
  let f2 := Ival.mul c2 (Ival.mul r2 r2)
  ⟨a, b, Ival.inv c1, Ival.inv c2, Ival.inv f1, Ival.inv f2,
    Ival.sqrtOk s1 && Ival.sqrtOk s2 && Ival.invOk c1 && Ival.invOk c2 && Ival.invOk f1
      && Ival.invOk f2⟩

/-- Enclosure of `PseudoPotentialGrad` on the box `X × Y`, from the shared quantities. -/
def gradI (X Y : Ival) (K : Kernels) : IVec :=
  ⟨Ival.add
      (Ival.add (Ival.mul (Ival.mul (Ival.point (1 / 50)) K.a) K.k1)
        (Ival.mul (Ival.mul (Ival.point (49 / 50)) K.b) K.k2))
      X,
    Ival.add
      (Ival.sub (Ival.mul (Ival.neg (Ival.mul (Ival.point (1 / 50)) Y)) K.k1)
        (Ival.mul (Ival.mul (Ival.point (49 / 50)) Y) K.k2))
      Y⟩

/-- Enclosure of `PseudoPotentialHessian` on the box `X × Y`, from the shared quantities. -/
def hessI (Y : Ival) (K : Kernels) : IMat :=
  let diag :=
    Ival.sub (Ival.mul (Ival.point (-(1 / 50))) K.k1) (Ival.mul (Ival.point (49 / 50)) K.k2)
  let hxx :=
    Ival.add
      (Ival.add
        (Ival.add diag (Ival.mul (Ival.mul (Ival.point (3 / 50)) (Ival.mul K.a K.a)) K.q1))
        (Ival.mul (Ival.mul (Ival.point (147 / 50)) (Ival.mul K.b K.b)) K.q2))
      (Ival.point 1)
  let hxy :=
    Ival.sub
      (Ival.mul (Ival.neg (Ival.mul (Ival.point (3 / 50)) (Ival.mul K.a Y))) K.q1)
      (Ival.mul (Ival.mul (Ival.point (147 / 50)) (Ival.mul K.b Y)) K.q2)
  let hyy :=
    Ival.add
      (Ival.add
        (Ival.add diag (Ival.mul (Ival.mul (Ival.point (3 / 50)) (Ival.mul Y Y)) K.q1))
        (Ival.mul (Ival.mul (Ival.point (147 / 50)) (Ival.mul Y Y)) K.q2))
      (Ival.point 1)
  ⟨hxx, hxy, hxy, hyy⟩

/-- The pivot choice of `luSolve` on a matrix of intervals: `some swap` when the
comparison `|m00| < |m10|` has the same outcome on the whole matrix. -/
def pivotI (H : IMat) : Option Bool :=
  if (Ival.abs H.m00).hi < (Ival.abs H.m10).lo then some true
  else if (Ival.abs H.m10).hi ≤ (Ival.abs H.m00).lo then some false
  else none

/-- The elimination of `luSolve` on intervals, for a known pivot choice; the flag tells
that both divisors are enclosed away from zero. -/
def luSolveI (swap : Bool) (H : IMat) (v : IVec) : IVec × Bool :=
  let a00 := if swap then H.m10 else H.m00
  let a01 := if swap then H.m11 else H.m01
  let a10 := if swap then H.m00 else H.m10
  let a11 := if swap then H.m01 else H.m11
  let c0 := if swap then v.y else v.x
  let c1 := if swap then v.x else v.y
  let l := Ival.mul a10 (Ival.inv a00)
  let u11 := Ival.sub a11 (Ival.mul l a01)
  let d1 := Ival.sub c1 (Ival.mul l c0)
  let x1 := Ival.mul d1 (Ival.inv u11)
  let x0 := Ival.mul (Ival.sub c0 (Ival.mul a01 x1)) (Ival.inv a00)
  (⟨x0, x1⟩, Ival.invOk a00 && Ival.invOk u11)

/-- One pass of the loop of `FindPoint` on a box: `some (box of x − dx, break)` when
every operation is enclosed and the test `dx.norm() < 1e-8` has the same outcome on the
whole box. -/
def stepI (B : IVec) : Option (IVec × Bool) :=
  let K := kernelsI B.x B.y
  match pivotI (hessI B.y K) with
  | none => none
  | some swap =>
    let dx := luSolveI swap (hessI B.y K) (gradI B.x B.y K)
    let n2 := Ival.add (Ival.mul dx.1.x dx.1.x) (Ival.mul dx.1.y dx.1.y)
    let B' : IVec := ⟨Ival.sub B.x dx.1.x, Ival.sub B.y dx.1.y⟩
    if K.ok && dx.2 then
      if n2.hi < 1 / 10 ^ 16 then some (B', true)
      else if 1 / 10 ^ 16 ≤ n2.lo then some (B', false)
      else none
    else none

/-- The loop of `FindPoint` on a box, with `n` passes left, for a given pass `step`. -/
def loopWith (step : IVec → Option (IVec × Bool)) : Nat → IVec → Option IVec
  | 0, B => some B
  | n + 1, B =>
    match step B with
    | none => none
    | some (B', true) => some B'
    | some (B', false) => loopWith step n B'

/-- The loop of `FindPoint` on a box, with `n` passes left. -/
def loopI (n : Nat) (B : IVec) : Option IVec := loopWith stepI n B

/-- The gradient is shorter than `1e-6` on the whole box. -/
def gradSmallI (B : IVec) : Bool :=
  let K := kernelsI B.x B.y
  let g := gradI B.x B.y K
  K.ok && decide ((Ival.add (Ival.mul g.x g.x) (Ival.mul g.y g.y)).hi < 1 / 10 ^ 12)

/-- The gradient is shorter than `1e-6` on the whole box the loop ended in, if any. -/
def gradSmallAtEnd : Option IVec → Bool
  | none => false
  | some B => gradSmallI B

/-- The check for one seed: the loop of `FindPoint` is followed on intervals from the
seed, and the gradient is shorter than `1e-6` on the box it ends in. -/
def checkSeed (qx qy : ℚ) : Bool :=
  gradSmallAtEnd (loopI 10 ⟨Ival.point qx, Ival.point qy⟩)

end LagrangePoints

/-- The point lies in the box. -/
def IVec.Mem (p : Vector2d ℝ) (B : IVec) : Prop := Ival.Mem p.x B.x ∧ Ival.Mem p.y B.y

/-! ## The library functions over the reals -/

section RealMath

theorem DoubleMath.sqrt_real (a : ℝ) : DoubleMath.sqrt a = Real.sqrt a := rfl

theorem DoubleMath.pow_real (a b : ℝ) : DoubleMath.pow a b = a ^ b := rfl

theorem DoubleMath.cos_real (a : ℝ) : DoubleMath.cos a = Real.cos a := rfl

theorem DoubleMath.sin_real (a : ℝ) : DoubleMath.sin a = Real.sin a := rfl

/-- A real power with exponent `3` is the cube. -/
theorem rpow_three_real (a : ℝ) : a ^ (3 : ℝ) = a ^ 3 := by
  have h := Real.rpow_natCast a 3
  norm_num at h
  exact h

/-- A real power with a half-integer exponent is a power of the square root. -/
theorem rpow_half_nat (s : ℝ) (hs : 0 ≤ s) (n : ℕ) : s ^ ((n : ℝ) / 2) = Real.sqrt s ^ n := by
  rw [Real.sqrt_eq_rpow, ← Real.rpow_natCast, ← Real.rpow_mul hs]
  congr 1
  ring

/-- The exponent `1.5`, as the program writes it. -/
theorem rpow_1_5 (s : ℝ) (hs : 0 ≤ s) : s ^ (1.5 : ℝ) = Real.sqrt s ^ 3 := by
  have h := rpow_half_nat s hs 3
  norm_num at h ⊢
  exact h

/-- The exponent `2.5`, as the program writes it. -/
theorem rpow_2_5 (s : ℝ) (hs : 0 ≤ s) : s ^ (2.5 : ℝ) = Real.sqrt s ^ 5 := by
  have h := rpow_half_nat s hs 5
  norm_num at h ⊢
  exact h

end RealMath

/-! ## C1: the vector field -/

namespace CRTBP

/-- The four components of `Direction`, over the reals. -/
theorem Direction_components (x y vx vy : ℝ) :
    Direction (⟨x, y, vx, vy⟩ : Vector4d ℝ) =
      ⟨vx, vy,
        omega ^ 2 * x + 2 * omega * vy
          + ((1 - mu) * (-mu - x) / Real.sqrt ((-mu - x) ^ 2 + (0 - y) ^ 2) ^ 3
            + mu * (1 - mu - x) / Real.sqrt ((1 - mu - x) ^ 2 + (0 - y) ^ 2) ^ 3),
        omega ^ 2 * y + 2 * omega * (-vx)
          + ((1 - mu) * (0 - y) / Real.sqrt ((-mu - x) ^ 2 + (0 - y) ^ 2) ^ 3
            + mu * (0 - y) / Real.sqrt ((1 - mu - x) ^ 2 + (0 - y) ^ 2) ^ 3)⟩ := by
  simp only [Direction, Acceleration, Vector2d.add, Vector2d.smul, Vector2d.sub,
    Vector2d.norm, Vector2d.squaredNorm, Matrix2d.mulVec, Matrix2d.smul, Sun, Earth,
    DoubleMath.sqrt_real, DoubleMath.pow_real, rpow_three_real]
  ext
  · rfl
  · rfl
  · simp only [← pow_two]; ring
  · simp only [← pow_two]; ring

/-- C1, as the code has it: for a state whose position is at neither body, `Direction`
returns `(vx, vy, ax, ay)` with `(ax, ay) = ω²·(x, y) + 2·ω·(vy, −vx) + Acceleration((x, y))`,
the Coriolis term being `2·ω·(vy, −vx)`, and `Acceleration(pos)` being
`(1−μ)·(Sun − pos)/|Sun − pos|³ + μ·(Earth − pos)/|Earth − pos|³`. -/
theorem Direction_formula (x y vx vy : ℝ) (_h : AwayFromBodies x y) :
    Direction (⟨x, y, vx, vy⟩ : Vector4d ℝ) =
      ⟨vx, vy,
        omega ^ 2 * x + 2 * omega * vy
          + ((1 - mu) * (-mu - x) / Real.sqrt ((-mu - x) ^ 2 + (0 - y) ^ 2) ^ 3
            + mu * (1 - mu - x) / Real.sqrt ((1 - mu - x) ^ 2 + (0 - y) ^ 2) ^ 3),
        omega ^ 2 * y + 2 * omega * (-vx)
          + ((1 - mu) * (0 - y) / Real.sqrt ((-mu - x) ^ 2 + (0 - y) ^ 2) ^ 3
            + mu * (0 - y) / Real.sqrt ((1 - mu - x) ^ 2 + (0 - y) ^ 2) ^ 3)⟩ :=
  Direction_components x y vx vy

/-- The position `(0, 1)` is at neither body. -/
theorem awayFromBodies_zero_one : AwayFromBodies 0 1 := by
  constructor <;> intro h <;> simp [Sun, Earth, Vector2d.ext_iff] at h

/-- Instance of `Direction_formula` at the state `(0, 1, 0, 1)`. -/
theorem Direction_formula_witness :
    AwayFromBodies 0 1 ∧
    Direction (⟨0, 1, 0, 1⟩ : Vector4d ℝ) =
      ⟨0, 1,
        omega ^ 2 * 0 + 2 * omega * 1
          + ((1 - mu) * (-mu - 0) / Real.sqrt ((-mu - 0) ^ 2 + (0 - 1) ^ 2) ^ 3
            + mu * (1 - mu - 0) / Real.sqrt ((1 - mu - 0) ^ 2 + (0 - 1) ^ 2) ^ 3),
        omega ^ 2 * 1 + 2 * omega * (-0)
          + ((1 - mu) * (0 - 1) / Real.sqrt ((-mu - 0) ^ 2 + (0 - 1) ^ 2) ^ 3
            + mu * (0 - 1) / Real.sqrt ((1 - mu - 0) ^ 2 + (0 - 1) ^ 2) ^ 3)⟩ :=
  ⟨awayFromBodies_zero_one, Direction_formula 0 1 0 1 awayFromBodies_zero_one⟩

/-- C1, as stated, fails at the state `(0, 1, 0, 1)`, whose position is at neither body:
with the Coriolis term `2·ω·(−vy, vx)` the third component would be
`ω²·0 + 2·ω·(−1) + Acceleration.x`, and `Direction` returns `ω²·0 + 2·ω·1 + Acceleration.x`. -/
theorem Direction_coriolis_counterexample :
    AwayFromBodies 0 1 ∧
    Direction (⟨0, 1, 0, 1⟩ : Vector4d ℝ) ≠
      ⟨0, 1,
        omega ^ 2 * 0 + 2 * omega * (-1)
          + ((1 - mu) * (-mu - 0) / Real.sqrt ((-mu - 0) ^ 2 + (0 - 1) ^ 2) ^ 3
            + mu * (1 - mu - 0) / Real.sqrt ((1 - mu - 0) ^ 2 + (0 - 1) ^ 2) ^ 3),
        omega ^ 2 * 1 + 2 * omega * 0
          + ((1 - mu) * (0 - 1) / Real.sqrt ((-mu - 0) ^ 2 + (0 - 1) ^ 2) ^ 3
            + mu * (0 - 1) / Real.sqrt ((1 - mu - 0) ^ 2 + (0 - 1) ^ 2) ^ 3)⟩ := by
  refine ⟨awayFromBodies_zero_one, fun h => ?_⟩
  rw [Direction_components] at h
  have hz := congrArg Vector4d.z h
  simp only [omega] at hz
  linarith

end CRTBP

/-! ## C2: the pseudo potential -/

namespace CRTBP

/-- C2: at a position `(x, y)` at neither body, `PseudoPotential` returns
`μ/d_E + (1−μ)/d_S + ω²·(x²+y²)/2`, with `d_E` the distance to the secondary body at
`(1−μ, 0)` and `d_S` the distance to the primary body at `(−μ, 0)`. -/
theorem PseudoPotential_formula (x y : ℝ) (_h : AwayFromBodies x y) :
    PseudoPotential (⟨x, y⟩ : Vector2d ℝ) =
      mu / Real.sqrt ((x - (Earth : Vector2d ℝ).x) ^ 2 + (y - (Earth : Vector2d ℝ).y) ^ 2)
        + (1 - mu) / Real.sqrt ((x - (Sun : Vector2d ℝ).x) ^ 2 + (y - (Sun : Vector2d ℝ).y) ^ 2)
        + omega ^ 2 * (x ^ 2 + y ^ 2) / 2 := by
  have e1 : y * y + (-x - mu + 1) ^ 2 = (x - (1 - mu)) ^ 2 + (y - 0) ^ 2 := by ring
  have e2 : y * y + (-x - mu) ^ 2 = (x - -mu) ^ 2 + (y - 0) ^ 2 := by ring
  simp only [PseudoPotential, Sun, Earth, DoubleMath.sqrt_real, DoubleMath.pow_real,
    Real.rpow_two, e1, e2]
  ring

/-- Instance of `PseudoPotential_formula` at the position `(0, 1)`. -/
theorem PseudoPotential_formula_witness :
    AwayFromBodies 0 1 ∧
    PseudoPotential (⟨0, 1⟩ : Vector2d ℝ) =
      mu / Real.sqrt ((0 - (Earth : Vector2d ℝ).x) ^ 2 + (1 - (Earth : Vector2d ℝ).y) ^ 2)
        + (1 - mu) / Real.sqrt ((0 - (Sun : Vector2d ℝ).x) ^ 2 + (1 - (Sun : Vector2d ℝ).y) ^ 2)
        + omega ^ 2 * (0 ^ 2 + 1 ^ 2) / 2 :=
  ⟨awayFromBodies_zero_one, PseudoPotential_formula 0 1 awayFromBodies_zero_one⟩

end CRTBP

/-! ## C3 and C4: the gradient and the Hessian are the derivatives -/

section Kernels

/-- Derivative of `t ↦ 1/√(s t)` where `s` is positive. -/
theorem hasDerivAt_inv_sqrt {s : ℝ → ℝ} {s' x : ℝ} (hs : HasDerivAt s s' x) (hpos : 0 < s x) :
    HasDerivAt (fun t => (Real.sqrt (s t))⁻¹) (-s' / (2 * Real.sqrt (s x) ^ 3)) x := by
  have hr : 0 < Real.sqrt (s x) := Real.sqrt_pos.mpr hpos
  have h1 := (hs.sqrt hpos.ne').inv hr.ne'
  convert h1 using 1
  generalize Real.sqrt (s x) = r at hr
  rw [show 2 * r ^ 3 = 2 * r * r ^ 2 by ring, ← div_div, neg_div]

/-- Derivative of `t ↦ 1/√(s t)³` where `s` is positive. -/
theorem hasDerivAt_inv_sqrt_cube {s : ℝ → ℝ} {s' x : ℝ} (hs : HasDerivAt s s' x)
    (hpos : 0 < s x) :
    HasDerivAt (fun t => (Real.sqrt (s t) ^ 3)⁻¹) (-(3 * s') / (2 * Real.sqrt (s x) ^ 5)) x := by
  have hr : 0 < Real.sqrt (s x) := Real.sqrt_pos.mpr hpos
  have h1 := ((hs.sqrt hpos.ne').pow 3).inv (pow_ne_zero 3 hr.ne')
  convert h1 using 1
  generalize Real.sqrt (s x) = r at hr
  field_simp
  ring

/-- Derivative of `t ↦ 1/√(s t)⁵` where `s` is positive. -/
theorem hasDerivAt_inv_sqrt_five {s : ℝ → ℝ} {s' x : ℝ} (hs : HasDerivAt s s' x)
    (hpos : 0 < s x) :
    HasDerivAt (fun t => (Real.sqrt (s t) ^ 5)⁻¹) (-(5 * s') / (2 * Real.sqrt (s x) ^ 7)) x := by
  have hr : 0 < Real.sqrt (s x) := Real.sqrt_pos.mpr hpos
  have h1 := ((hs.sqrt hpos.ne').pow 5).inv (pow_ne_zero 5 hr.ne')
  convert h1 using 1
  generalize Real.sqrt (s x) = r at hr
  field_simp
  ring

end Kernels

namespace CRTBP

/-- The squared distance to the Earth is positive away from the Earth. -/
theorem earth_sq_dist_pos (x y : ℝ) (h : (⟨x, y⟩ : Vector2d ℝ) ≠ Earth) :
    0 < y * y + (-x - mu + 1) ^ 2 := by
  rcases eq_or_ne y 0 with hy | hy
  · have hx : -x - mu + 1 ≠ 0 := by
      intro hx
      apply h
      ext
      · show x = 1 - mu
        linarith
      · exact hy
    have := pow_pos (abs_pos.mpr hx) 2
    rw [sq_abs] at this
    nlinarith [mul_self_nonneg y]
  · have := mul_self_pos.mpr hy
    nlinarith [sq_nonneg (-x - mu + 1)]

/-- The squared distance to the Sun is positive away from the Sun. -/
theorem sun_sq_dist_pos (x y : ℝ) (h : (⟨x, y⟩ : Vector2d ℝ) ≠ Sun) :
    0 < y * y + (-x - mu) ^ 2 := by
  rcases eq_or_ne y 0 with hy | hy
  · have hx : -x - mu ≠ 0 := by
      intro hx
      apply h
      ext
      · show x = -mu
        linarith
      · exact hy
    have := pow_pos (abs_pos.mpr hx) 2
    rw [sq_abs] at this
    nlinarith [mul_self_nonneg y]
  · have := mul_self_pos.mpr hy
    nlinarith [sq_nonneg (-x - mu)]

/-- `PseudoPotential` over the reals, with inverses of square roots. -/
theorem PseudoPotential_real (x y : ℝ) :
    PseudoPotential (⟨x, y⟩ : Vector2d ℝ) =
      mu * (Real.sqrt (y * y + (-x - mu + 1) ^ 2))⁻¹
        + (1 - mu) * (Real.sqrt (y * y + (-x - mu) ^ 2))⁻¹
        + (omega * omega * (y * y + x * x)) / 2 := by
  simp only [PseudoPotential, DoubleMath.sqrt_real, DoubleMath.pow_real, Real.rpow_two,
    div_eq_mul_inv]

/-- `PseudoPotentialGrad` over the reals, with inverse cubes of square roots. -/
theorem PseudoPotentialGrad_real (x y : ℝ) :
    PseudoPotentialGrad (⟨x, y⟩ : Vector2d ℝ) =
      ⟨mu * (-x - mu + 1) * (Real.sqrt (y * y + (-x - mu + 1) ^ 2) ^ 3)⁻¹
          + (1 - mu) * (-x - mu) * (Real.sqrt (y * y + (-x - mu) ^ 2) ^ 3)⁻¹
          + omega * omega * x,
        -(mu * y) * (Real.sqrt (y * y + (-x - mu + 1) ^ 2) ^ 3)⁻¹
          - (1 - mu) * y * (Real.sqrt (y * y + (-x - mu) ^ 2) ^ 3)⁻¹
          + omega * omega * y⟩ := by
  have h1 : 0 ≤ y * y + (-x - mu + 1) ^ 2 := add_nonneg (mul_self_nonneg y) (sq_nonneg _)
  have h2 : 0 ≤ y * y + (-x - mu) ^ 2 := add_nonneg (mul_self_nonneg y) (sq_nonneg _)
  simp only [PseudoPotentialGrad, DoubleMath.pow_real, Real.rpow_two, rpow_1_5 _ h1,
    rpow_1_5 _ h2, div_eq_mul_inv]

/-- `PseudoPotentialHessian` over the reals, with inverse powers of square roots. -/
theorem PseudoPotentialHessian_real (x y : ℝ) :
    PseudoPotentialHessian (⟨x, y⟩ : Vector2d ℝ) =
      ⟨-mu * (Real.sqrt (y * y + (-x - mu + 1) ^ 2) ^ 3)⁻¹
          + 3 * mu * (-x - mu + 1) ^ 2 * (Real.sqrt (y * y + (-x - mu + 1) ^ 2) ^ 5)⁻¹
          - (1 - mu) * (Real.sqrt (y * y + (-x - mu) ^ 2) ^ 3)⁻¹
          + 3 * (1 - mu) * (-x - mu) ^ 2 * (Real.sqrt (y * y + (-x - mu) ^ 2) ^ 5)⁻¹
          + omega * omega,
        -(3 * mu * (-x - mu + 1) * y) * (Real.sqrt (y * y + (-x - mu + 1) ^ 2) ^ 5)⁻¹
          - 3 * (1 - mu) * (-x - mu) * y * (Real.sqrt (y * y + (-x - mu) ^ 2) ^ 5)⁻¹,
        -(3 * mu * (-x - mu + 1) * y) * (Real.sqrt (y * y + (-x - mu + 1) ^ 2) ^ 5)⁻¹
          - 3 * (1 - mu) * (-x - mu) * y * (Real.sqrt (y * y + (-x - mu) ^ 2) ^ 5)⁻¹,
        -mu * (Real.sqrt (y * y + (-x - mu + 1) ^ 2) ^ 3)⁻¹
          + 3 * mu * (y * y) * (Real.sqrt (y * y + (-x - mu + 1) ^ 2) ^ 5)⁻¹
          - (1 - mu) * (Real.sqrt (y * y + (-x - mu) ^ 2) ^ 3)⁻¹
          + 3 * (1 - mu) * (y * y) * (Real.sqrt (y * y + (-x - mu) ^ 2) ^ 5)⁻¹
          + omega * omega⟩ := by
  have h1 : 0 ≤ y * y + (-x - mu + 1) ^ 2 := add_nonneg (mul_self_nonneg y) (sq_nonneg _)
  have h2 : 0 ≤ y * y + (-x - mu) ^ 2 := add_nonneg (mul_self_nonneg y) (sq_nonneg _)
  simp only [PseudoPotentialHessian, DoubleMath.pow_real, Real.rpow_two, rpow_1_5 _ h1,
    rpow_1_5 _ h2, rpow_2_5 _ h1, rpow_2_5 _ h2, div_eq_mul_inv]

end CRTBP

namespace CRTBP

/-- C3: at a position at neither body, the two components of `PseudoPotentialGrad` are the
partial derivatives `∂U/∂x` and `∂U/∂y` of `U = PseudoPotential`. -/
theorem PseudoPotentialGrad_partial_derivatives (x y : ℝ) (h : AwayFromBodies x y) :
    HasDerivAt (fun t => PseudoPotential (⟨t, y⟩ : Vector2d ℝ))
        (PseudoPotentialGrad (⟨x, y⟩ : Vector2d ℝ)).x x ∧
      HasDerivAt (fun t => PseudoPotential (⟨x, t⟩ : Vector2d ℝ))
        (PseudoPotentialGrad (⟨x, y⟩ : Vector2d ℝ)).y y := by
  have p1 := earth_sq_dist_pos x y h.2
  have p2 := sun_sq_dist_pos x y h.1
  have r1 : 0 < Real.sqrt (y * y + (-x - mu + 1) ^ 2) := Real.sqrt_pos.mpr p1
  have r2 : 0 < Real.sqrt (y * y + (-x - mu) ^ 2) := Real.sqrt_pos.mpr p2
  constructor
  · have hf : (fun t => PseudoPotential (⟨t, y⟩ : Vector2d ℝ)) = fun t =>
        mu * (Real.sqrt (y * y + (-t - mu + 1) ^ 2))⁻¹
          + (1 - mu) * (Real.sqrt (y * y + (-t - mu) ^ 2))⁻¹
          + (omega * omega * (y * y + t * t)) / 2 :=
      funext fun t => PseudoPotential_real t y
    have hA : HasDerivAt (fun t : ℝ => -t - (mu : ℝ) + 1) (-1) x :=
      ((hasDerivAt_id x).neg.sub_const mu).add_const 1
    have hB : HasDerivAt (fun t : ℝ => -t - (mu : ℝ)) (-1) x :=
      (hasDerivAt_id x).neg.sub_const mu
    have hs1 : HasDerivAt (fun t : ℝ => y * y + (-t - mu + 1) ^ 2)
        (2 * (-x - mu + 1) * (-1)) x := by
      simpa using (hA.pow 2).const_add (y * y)
    have hs2 : HasDerivAt (fun t : ℝ => y * y + (-t - mu) ^ 2)
        (2 * (-x - mu) * (-1)) x := by
      simpa using (hB.pow 2).const_add (y * y)
    have hq : HasDerivAt (fun t : ℝ => (omega * omega * (y * y + t * t)) / 2)
        (omega * omega * x) x := by
      have := ((((hasDerivAt_id x).mul (hasDerivAt_id x)).const_add (y * y)).const_mul
        ((omega : ℝ) * omega)).div_const 2
      convert this using 1
      simp only [id]
      ring
    have hU := (((hasDerivAt_inv_sqrt hs1 p1).const_mul (mu : ℝ)).add
      ((hasDerivAt_inv_sqrt hs2 p2).const_mul (1 - (mu : ℝ)))).add hq
    rw [hf, PseudoPotentialGrad_real]
    refine hU.congr_deriv ?_
    show _ = mu * (-x - mu + 1) * (Real.sqrt (y * y + (-x - mu + 1) ^ 2) ^ 3)⁻¹
          + (1 - mu) * (-x - mu) * (Real.sqrt (y * y + (-x - mu) ^ 2) ^ 3)⁻¹
          + omega * omega * x
    generalize Real.sqrt (y * y + (-x - mu + 1) ^ 2) = a at r1
    generalize Real.sqrt (y * y + (-x - mu) ^ 2) = b at r2
    field_simp
    ring
  · have hf : (fun t => PseudoPotential (⟨x, t⟩ : Vector2d ℝ)) = fun t =>
        mu * (Real.sqrt (t * t + (-x - mu + 1) ^ 2))⁻¹
          + (1 - mu) * (Real.sqrt (t * t + (-x - mu) ^ 2))⁻¹
          + (omega * omega * (t * t + x * x)) / 2 :=
      funext fun t => PseudoPotential_real x t
    have hs1 : HasDerivAt (fun t : ℝ => t * t + (-x - mu + 1) ^ 2) (2 * y) y := by
      have := ((hasDerivAt_id y).mul (hasDerivAt_id y)).add_const ((-x - mu + 1) ^ 2)
      convert this using 1
      simp only [id]
      ring
    have hs2 : HasDerivAt (fun t : ℝ => t * t + (-x - mu) ^ 2) (2 * y) y := by
      have := ((hasDerivAt_id y).mul (hasDerivAt_id y)).add_const ((-x - mu) ^ 2)
      convert this using 1
      simp only [id]
      ring
    have hq : HasDerivAt (fun t : ℝ => (omega * omega * (t * t + x * x)) / 2)
        (omega * omega * y) y := by
      have := ((((hasDerivAt_id y).mul (hasDerivAt_id y)).add_const (x * x)).const_mul
        ((omega : ℝ) * omega)).div_const 2
      convert this using 1
      simp only [id]
      ring
    have hU := (((hasDerivAt_inv_sqrt hs1 p1).const_mul (mu : ℝ)).add
      ((hasDerivAt_inv_sqrt hs2 p2).const_mul (1 - (mu : ℝ)))).add hq
    rw [hf, PseudoPotentialGrad_real]
    refine hU.congr_deriv ?_
    show _ = -(mu * y) * (Real.sqrt (y * y + (-x - mu + 1) ^ 2) ^ 3)⁻¹
          - (1 - mu) * y * (Real.sqrt (y * y + (-x - mu) ^ 2) ^ 3)⁻¹
          + omega * omega * y
    generalize Real.sqrt (y * y + (-x - mu + 1) ^ 2) = a at r1
    generalize Real.sqrt (y * y + (-x - mu) ^ 2) = b at r2
    field_simp
    ring

end CRTBP

namespace CRTBP

/-- C4: at a position at neither body, `PseudoPotentialHessian` is the symmetric matrix of
the derivatives of `PseudoPotentialGrad`: entry (0,0) is `∂/∂x` of the x-component, entry
(1,1) is `∂/∂y` of the y-component, and the off-diagonal entries are equal to each other,
to `∂/∂y` of the x-component and to `∂/∂x` of the y-component. -/
theorem PseudoPotentialHessian_partial_derivatives (x y : ℝ) (h : AwayFromBodies x y) :
    HasDerivAt (fun t => (PseudoPotentialGrad (⟨t, y⟩ : Vector2d ℝ)).x)
        (PseudoPotentialHessian (⟨x, y⟩ : Vector2d ℝ)).m00 x ∧
      HasDerivAt (fun t => (PseudoPotentialGrad (⟨x, t⟩ : Vector2d ℝ)).y)
        (PseudoPotentialHessian (⟨x, y⟩ : Vector2d ℝ)).m11 y ∧
      (PseudoPotentialHessian (⟨x, y⟩ : Vector2d ℝ)).m01
        = (PseudoPotentialHessian (⟨x, y⟩ : Vector2d ℝ)).m10 ∧
      HasDerivAt (fun t => (PseudoPotentialGrad (⟨x, t⟩ : Vector2d ℝ)).x)
        (PseudoPotentialHessian (⟨x, y⟩ : Vector2d ℝ)).m01 y ∧
      HasDerivAt (fun t => (PseudoPotentialGrad (⟨t, y⟩ : Vector2d ℝ)).y)
        (PseudoPotentialHessian (⟨x, y⟩ : Vector2d ℝ)).m10 x := by
  have p1 := earth_sq_dist_pos x y h.2
  have p2 := sun_sq_dist_pos x y h.1
  have r1 : 0 < Real.sqrt (y * y + (-x - mu + 1) ^ 2) := Real.sqrt_pos.mpr p1
  have r2 : 0 < Real.sqrt (y * y + (-x - mu) ^ 2) := Real.sqrt_pos.mpr p2
  have hA : HasDerivAt (fun t : ℝ => -t - (mu : ℝ) + 1) (-1) x :=
    ((hasDerivAt_id x).neg.sub_const mu).add_const 1
  have hB : HasDerivAt (fun t : ℝ => -t - (mu : ℝ)) (-1) x :=
    (hasDerivAt_id x).neg.sub_const mu
  have hs1x : HasDerivAt (fun t : ℝ => y * y + (-t - mu + 1) ^ 2)
      (2 * (-x - mu + 1) * (-1)) x := by
    simpa using (hA.pow 2).const_add (y * y)
  have hs2x : HasDerivAt (fun t : ℝ => y * y + (-t - mu) ^ 2)
      (2 * (-x - mu) * (-1)) x := by
    simpa using (hB.pow 2).const_add (y * y)
  have hs1y : HasDerivAt (fun t : ℝ => t * t + (-x - mu + 1) ^ 2) (2 * y) y := by
    have := ((hasDerivAt_id y).mul (hasDerivAt_id y)).add_const ((-x - mu + 1) ^ 2)
    convert this using 1
    simp only [id]
    ring
  have hs2y : HasDerivAt (fun t : ℝ => t * t + (-x - mu) ^ 2) (2 * y) y := by
    have := ((hasDerivAt_id y).mul (hasDerivAt_id y)).add_const ((-x - mu) ^ 2)
    convert this using 1
    simp only [id]
    ring
  have hgx : ∀ u v : ℝ, (PseudoPotentialGrad (⟨u, v⟩ : Vector2d ℝ)).x =
      mu * (-u - mu + 1) * (Real.sqrt (v * v + (-u - mu + 1) ^ 2) ^ 3)⁻¹
          + (1 - mu) * (-u - mu) * (Real.sqrt (v * v + (-u - mu) ^ 2) ^ 3)⁻¹
          + omega * omega * u := fun u v => by rw [PseudoPotentialGrad_real]
  have hgy : ∀ u v : ℝ, (PseudoPotentialGrad (⟨u, v⟩ : Vector2d ℝ)).y =
      -(mu * v) * (Real.sqrt (v * v + (-u - mu + 1) ^ 2) ^ 3)⁻¹
          - (1 - mu) * v * (Real.sqrt (v * v + (-u - mu) ^ 2) ^ 3)⁻¹
          + omega * omega * v := fun u v => by rw [PseudoPotentialGrad_real]
  rw [PseudoPotentialHessian_real]
  refine ⟨?_, ?_, rfl, ?_, ?_⟩
  · have hD := (((hA.const_mul (mu : ℝ)).mul (hasDerivAt_inv_sqrt_cube hs1x p1)).add
      ((hB.const_mul (1 - (mu : ℝ))).mul (hasDerivAt_inv_sqrt_cube hs2x p2))).add
      ((hasDerivAt_id' x).const_mul ((omega : ℝ) * omega))
    rw [funext fun t => hgx t y]
    refine hD.congr_deriv ?_
    beta_reduce
    generalize Real.sqrt (y * y + (-x - mu + 1) ^ 2) = a at r1
    generalize Real.sqrt (y * y + (-x - mu) ^ 2) = b at r2
    field_simp
    ring
  · have hD := (((((hasDerivAt_id' y).const_mul (mu : ℝ)).neg).mul
        (hasDerivAt_inv_sqrt_cube hs1y p1)).sub
      (((hasDerivAt_id' y).const_mul (1 - (mu : ℝ))).mul (hasDerivAt_inv_sqrt_cube hs2y p2))).add
      ((hasDerivAt_id' y).const_mul ((omega : ℝ) * omega))
    rw [funext fun t => hgy x t]
    refine hD.congr_deriv ?_
    beta_reduce
    generalize Real.sqrt (y * y + (-x - mu + 1) ^ 2) = a at r1
    generalize Real.sqrt (y * y + (-x - mu) ^ 2) = b at r2
    field_simp
    ring
  · have hD := (((hasDerivAt_inv_sqrt_cube hs1y p1).const_mul ((mu : ℝ) * (-x - mu + 1))).add
      ((hasDerivAt_inv_sqrt_cube hs2y p2).const_mul ((1 - (mu : ℝ)) * (-x - mu)))).add_const
      ((omega : ℝ) * omega * x)
    rw [funext fun t => hgx x t]
    refine hD.congr_deriv ?_
    beta_reduce
    generalize Real.sqrt (y * y + (-x - mu + 1) ^ 2) = a at r1
    generalize Real.sqrt (y * y + (-x - mu) ^ 2) = b at r2
    field_simp
    ring
  · have hD := (((hasDerivAt_inv_sqrt_cube hs1x p1).const_mul (-((mu : ℝ) * y))).sub
      ((hasDerivAt_inv_sqrt_cube hs2x p2).const_mul ((1 - (mu : ℝ)) * y))).add_const
      ((omega : ℝ) * omega * y)
    rw [funext fun t => hgy t y]
    refine hD.congr_deriv ?_
    beta_reduce
    generalize Real.sqrt (y * y + (-x - mu + 1) ^ 2) = a at r1
    generalize Real.sqrt (y * y + (-x - mu) ^ 2) = b at r2
    field_simp
    ring

end CRTBP

namespace CRTBP

/-- Instance of `PseudoPotentialGrad_partial_derivatives` at the position `(0, 1)`. -/
theorem PseudoPotentialGrad_partial_derivatives_witness :
    AwayFromBodies 0 1 ∧
      HasDerivAt (fun t => PseudoPotential (⟨t, 1⟩ : Vector2d ℝ))
        (PseudoPotentialGrad (⟨0, 1⟩ : Vector2d ℝ)).x 0 ∧
      HasDerivAt (fun t => PseudoPotential (⟨0, t⟩ : Vector2d ℝ))
        (PseudoPotentialGrad (⟨0, 1⟩ : Vector2d ℝ)).y 1 :=
  ⟨awayFromBodies_zero_one, PseudoPotentialGrad_partial_derivatives 0 1 awayFromBodies_zero_one⟩

/-- Instance of `PseudoPotentialHessian_partial_derivatives` at the position `(0, 1)`. -/
theorem PseudoPotentialHessian_partial_derivatives_witness :
    AwayFromBodies 0 1 ∧
      HasDerivAt (fun t => (PseudoPotentialGrad (⟨t, 1⟩ : Vector2d ℝ)).x)
        (PseudoPotentialHessian (⟨0, 1⟩ : Vector2d ℝ)).m00 0 ∧
      HasDerivAt (fun t => (PseudoPotentialGrad (⟨0, t⟩ : Vector2d ℝ)).y)
        (PseudoPotentialHessian (⟨0, 1⟩ : Vector2d ℝ)).m11 1 ∧
      (PseudoPotentialHessian (⟨0, 1⟩ : Vector2d ℝ)).m01
        = (PseudoPotentialHessian (⟨0, 1⟩ : Vector2d ℝ)).m10 ∧
      HasDerivAt (fun t => (PseudoPotentialGrad (⟨0, t⟩ : Vector2d ℝ)).x)
        (PseudoPotentialHessian (⟨0, 1⟩ : Vector2d ℝ)).m01 1 ∧
      HasDerivAt (fun t => (PseudoPotentialGrad (⟨t, 1⟩ : Vector2d ℝ)).y)
        (PseudoPotentialHessian (⟨0, 1⟩ : Vector2d ℝ)).m10 0 :=
  ⟨awayFromBodies_zero_one,
    PseudoPotentialHessian_partial_derivatives 0 1 awayFromBodies_zero_one⟩

/-! ## C5: the Jacobi constant -/

/-- C5, the code at `pos = (0, 1)`, `v0 = 2`: `JacobiConstant` returns
`2·PseudoPotential(pos) − 2`, which is not `2·PseudoPotential(pos) − 2²`; the speed is
subtracted unsquared. -/
theorem JacobiConstant_subtracts_v0_unsquared :
    JacobiConstant (⟨0, 1⟩ : Vector2d ℝ) 2 = 2 * PseudoPotential (⟨0, 1⟩ : Vector2d ℝ) - 2 ∧
      JacobiConstant (⟨0, 1⟩ : Vector2d ℝ) 2
        ≠ 2 * PseudoPotential (⟨0, 1⟩ : Vector2d ℝ) - 2 ^ 2 := by
  refine ⟨rfl, fun h => ?_⟩
  simp only [JacobiConstant] at h
  linarith

/-! ## C6: conservation of the Jacobi quantity -/

/-- The gradient of the pseudo potential is the centrifugal term plus the gravitational
acceleration. -/
theorem PseudoPotentialGrad_eq_centrifugal_add_Acceleration (x y : ℝ) :
    PseudoPotentialGrad (⟨x, y⟩ : Vector2d ℝ) =
      Vector2d.add (Vector2d.smul (omega * omega) ⟨x, y⟩) (Acceleration ⟨x, y⟩) := by
  have h1 : 0 ≤ y * y + (-x - mu + 1) ^ 2 := add_nonneg (mul_self_nonneg y) (sq_nonneg _)
  have h2 : 0 ≤ y * y + (-x - mu) ^ 2 := add_nonneg (mul_self_nonneg y) (sq_nonneg _)
  have e1 : (1 - mu - x) * (1 - mu - x) + (0 - y) * (0 - y) = y * y + (-x - mu + 1) ^ 2 := by
    ring
  have e2 : (-mu - x) * (-mu - x) + (0 - y) * (0 - y) = y * y + (-x - mu) ^ 2 := by ring
  simp only [PseudoPotentialGrad, Acceleration, Vector2d.add, Vector2d.smul, Vector2d.sub,
    Vector2d.norm, Vector2d.squaredNorm, Sun, Earth, DoubleMath.sqrt_real,
    DoubleMath.pow_real, Real.rpow_two, rpow_three_real, rpow_1_5 _ h1, rpow_1_5 _ h2, e1, e2]
  ext
  · show _ = _
    ring
  · show _ = _
    ring

/-- C6: for a state whose position is at neither body, with `(vx, vy, ax, ay) =
Direction(state)`, the derivative of `J = 2·PseudoPotential − (vx² + vy²)` along the field
vanishes: `2·PseudoPotentialGrad((x, y))·(vx, vy) − 2·(vx, vy)·(ax, ay) = 0`. -/
theorem Jacobi_conserved_along_Direction (x y vx vy : ℝ) (_h : AwayFromBodies x y) :
    (Direction (⟨x, y, vx, vy⟩ : Vector4d ℝ)).x = vx ∧
      (Direction (⟨x, y, vx, vy⟩ : Vector4d ℝ)).y = vy ∧
      2 * ((PseudoPotentialGrad (⟨x, y⟩ : Vector2d ℝ)).x * vx
          + (PseudoPotentialGrad (⟨x, y⟩ : Vector2d ℝ)).y * vy)
        - 2 * (vx * (Direction (⟨x, y, vx, vy⟩ : Vector4d ℝ)).z
          + vy * (Direction (⟨x, y, vx, vy⟩ : Vector4d ℝ)).w) = 0 := by
  refine ⟨rfl, rfl, ?_⟩
  rw [PseudoPotentialGrad_eq_centrifugal_add_Acceleration]
  simp only [Direction, Vector2d.add, Vector2d.smul, Matrix2d.mulVec, Matrix2d.smul]
  ring

/-- Instance of `Jacobi_conserved_along_Direction` at the state `(0, 1, 2, 3)`. -/
theorem Jacobi_conserved_along_Direction_witness :
    AwayFromBodies 0 1 ∧
      (Direction (⟨0, 1, 2, 3⟩ : Vector4d ℝ)).x = 2 ∧
      (Direction (⟨0, 1, 2, 3⟩ : Vector4d ℝ)).y = 3 ∧
      2 * ((PseudoPotentialGrad (⟨0, 1⟩ : Vector2d ℝ)).x * 2
          + (PseudoPotentialGrad (⟨0, 1⟩ : Vector2d ℝ)).y * 3)
        - 2 * (2 * (Direction (⟨0, 1, 2, 3⟩ : Vector4d ℝ)).z
          + 3 * (Direction (⟨0, 1, 2, 3⟩ : Vector4d ℝ)).w) = 0 :=
  ⟨awayFromBodies_zero_one, Jacobi_conserved_along_Direction 0 1 2 3 awayFromBodies_zero_one⟩

/-! ## C8: the equilateral points -/

/-- C8: with `μ = 0.02` and `ω = 1`, `PseudoPotentialGrad` is the zero vector at
`(0.5 − μ, +√3/2)` and at `(0.5 − μ, −√3/2)`. -/
theorem PseudoPotentialGrad_equilateral_points :
    (mu : ℝ) = 0.02 ∧ (omega : ℝ) = 1 ∧
      PseudoPotentialGrad (⟨0.5 - mu, Real.sqrt 3 / 2⟩ : Vector2d ℝ) = ⟨0, 0⟩ ∧
      PseudoPotentialGrad (⟨0.5 - mu, -(Real.sqrt 3 / 2)⟩ : Vector2d ℝ) = ⟨0, 0⟩ := by
  have h3 : Real.sqrt 3 * Real.sqrt 3 = 3 := Real.mul_self_sqrt (by norm_num)
  have e1 : Real.sqrt 3 / 2 * (Real.sqrt 3 / 2) + (-(0.5 - mu) - mu + 1) ^ 2 = (1 : ℝ) := by
    have : Real.sqrt 3 / 2 * (Real.sqrt 3 / 2) = 3 / 4 := by
      rw [div_mul_div_comm, h3]; norm_num
    rw [this]; norm_num
  have e2 : Real.sqrt 3 / 2 * (Real.sqrt 3 / 2) + (-(0.5 - mu) - mu) ^ 2 = (1 : ℝ) := by
    have : Real.sqrt 3 / 2 * (Real.sqrt 3 / 2) = 3 / 4 := by
      rw [div_mul_div_comm, h3]; norm_num
    rw [this]; norm_num
  refine ⟨rfl, by norm_num [omega], ?_, ?_⟩
  · simp only [PseudoPotentialGrad, DoubleMath.pow_real, Real.rpow_two, e1, e2,
      Real.one_rpow, omega]
    ext
    · show _ = (0 : ℝ)
      ring
    · show _ = (0 : ℝ)
      ring
  · simp only [PseudoPotentialGrad, DoubleMath.pow_real, Real.rpow_two, neg_mul_neg, e1, e2,
      Real.one_rpow, omega]
    ext
    · show _ = (0 : ℝ)
      ring
    · show _ = (0 : ℝ)
      ring

end CRTBP

/-! ## C7: the Newton–Raphson loop -/

namespace LagrangePoints

/-- The elimination of `luSolve` on rows `(a, b | p)` (the pivot row) and `(c, d | q)`. -/
theorem luSolve_rows (a b c d p q : ℝ) (ha : a ≠ 0) (hu : a * d - c * b ≠ 0) :
    a * ((p - b * ((q - c / a * p) / (d - c / a * b))) / a)
        + b * ((q - c / a * p) / (d - c / a * b)) = p ∧
      c * ((p - b * ((q - c / a * p) / (d - c / a * b))) / a)
        + d * ((q - c / a * p) / (d - c / a * b)) = q := by
  have e : d - c / a * b = (a * d - c * b) / a := by
    field_simp
    ring
  have hX : (q - c / a * p) / ((a * d - c * b) / a) = (a * q - c * p) / (a * d - c * b) := by
    field_simp
    ring
  rw [e, hX]
  constructor
  · generalize (a * q - c * p) / (a * d - c * b) = X
    field_simp
  · field_simp
    ring

/-- The linear solve returns a solution when the determinant is not zero. -/
theorem luSolve_mulVec (H : Matrix2d ℝ) (v : Vector2d ℝ) (hdet : det H ≠ 0) :
    Matrix2d.mulVec H (luSolve H v) = v := by
  obtain ⟨a, b, c, d⟩ := H
  obtain ⟨p, q⟩ := v
  simp only [det] at hdet
  by_cases hsw : |a| < |c|
  · have hc : c ≠ 0 := by
      intro hc
      rw [hc, abs_zero] at hsw
      exact absurd hsw (not_lt.mpr (abs_nonneg a))
    have hu : c * b - a * d ≠ 0 := fun hu => hdet (by linarith)
    obtain ⟨h1, h2⟩ := luSolve_rows c d a b q p hc hu
    simp only [luSolve, Matrix2d.mulVec, hsw, decide_True, if_true]
    ext
    · exact h2
    · exact h1
  · have ha : a ≠ 0 := by
      intro ha
      rw [ha, abs_zero] at hsw
      have hc : c = 0 := abs_eq_zero.mp (le_antisymm (not_lt.mp hsw) (abs_nonneg c))
      apply hdet
      rw [ha, hc]
      ring
    have hu : a * d - c * b ≠ 0 := fun hu => hdet (by linarith)
    obtain ⟨h1, h2⟩ := luSolve_rows a b c d p q ha hu
    simp only [luSolve, Matrix2d.mulVec, hsw, decide_False, if_false]
    ext
    · exact h1
    · exact h2

/-- The loop of `FindPoint` with `n` passes left returns a Newton iterate: it stops after
the first step shorter than `1e-8`, or after `n` steps. -/
theorem FindPoint_loop_iterate (n : ℕ) (x : Vector2d ℝ) :
    ∃ k, (0 < n → 1 ≤ k) ∧ k ≤ n ∧ FindPoint.loop n x = newtonStep^[k] x ∧
      (∀ j, j + 1 < k → ¬ Vector2d.norm (newtonDx (newtonStep^[j] x)) < 1e-8) ∧
      (k = n ∨ Vector2d.norm (newtonDx (newtonStep^[k - 1] x)) < 1e-8) := by
  induction n generalizing x with
  | zero => exact ⟨0, fun h => absurd h (lt_irrefl 0), le_refl 0, rfl, fun j hj => by omega, Or.inl rfl⟩
  | succ n ih =>
    by_cases hb : Vector2d.norm (newtonDx x) < 1e-8
    · refine ⟨1, fun _ => le_refl 1, by omega, ?_, fun j hj => by omega, Or.inr ?_⟩
      · simp only [FindPoint.loop, hb, if_true, Function.iterate_succ, Function.iterate_zero,
          Function.comp_apply, id_eq, newtonStep]
      · simpa using hb
    · obtain ⟨k, hk1, hk2, hk3, hk4, hk5⟩ := ih (newtonStep x)
      refine ⟨k + 1, fun _ => by omega, by omega, ?_, ?_, ?_⟩
      · simp only [FindPoint.loop, hb, if_false, Function.iterate_succ, Function.comp_apply]
        exact hk3
      · intro j hj
        cases j with
        | zero => simpa using hb
        | succ j =>
          rw [Function.iterate_succ_apply]
          exact hk4 j (by omega)
      · rcases hk5 with hk5 | hk5
        · exact Or.inl (by omega)
        · rcases Nat.eq_zero_or_pos k with hk0 | hk0
          · have : n = 0 := by
              by_contra hn
              have := hk1 (Nat.pos_of_ne_zero hn)
              omega
            exact Or.inl (by omega)
          · right
            have e : k + 1 - 1 = (k - 1) + 1 := by omega
            rw [e, Function.iterate_succ_apply]
            exact hk5

/-- C7: for every seed `x0`, `FindPoint(x0)` is the iterate after `n` Newton steps
`x ← x − dx`, where `1 ≤ n ≤ 10`, no step before the last is shorter than `1e-8`, and the
last step is shorter than `1e-8` unless `n = 10`; the iterate is returned either way.  In
each step `dx` solves `PseudoPotentialHessian(x)·dx = PseudoPotentialGrad(x)`, the Hessian
having an inverse. -/
theorem FindPoint_newton_iteration (x0 : Vector2d ℝ) :
    ∃ n, 1 ≤ n ∧ n ≤ 10 ∧ FindPoint x0 = newtonStep^[n] x0 ∧
      (∀ j, j + 1 < n → ¬ Vector2d.norm (newtonDx (newtonStep^[j] x0)) < 1e-8) ∧
      (n = 10 ∨ Vector2d.norm (newtonDx (newtonStep^[n - 1] x0)) < 1e-8) ∧
      (∀ j, j < n →
        newtonStep^[j + 1] x0 = Vector2d.sub (newtonStep^[j] x0) (newtonDx (newtonStep^[j] x0)) ∧
        (det (CRTBP.PseudoPotentialHessian (newtonStep^[j] x0)) ≠ 0 →
          Matrix2d.mulVec (CRTBP.PseudoPotentialHessian (newtonStep^[j] x0))
            (newtonDx (newtonStep^[j] x0)) = CRTBP.PseudoPotentialGrad (newtonStep^[j] x0))) := by
  obtain ⟨k, hk1, hk2, hk3, hk4, hk5⟩ := FindPoint_loop_iterate 10 x0
  refine ⟨k, hk1 (by norm_num), hk2, hk3, hk4, hk5, fun j _ => ⟨?_, fun hdet => ?_⟩⟩
  · rw [Function.iterate_succ_apply']
    rfl
  · exact luSolve_mulVec _ _ hdet

end LagrangePoints

/-! ## C10: the trajectory is the sequence of Runge–Kutta iterates -/

namespace Tracer

/-- The point `Pick` inserts for a state: its `(x, y)` part, at height `0.0`. -/
theorem point_zero_height (s : Vector4d ℝ) :
    (⟨s.x, s.y, 0.0⟩ : Vector3d ℝ) = ⟨s.x, s.y, 0⟩ := by
  norm_num

/-- The body of the integration loop is the classical Runge–Kutta step on `Direction`
with `h = IntegrationStepSize`. -/
theorem nextState_eq_rk4Step (s : Vector4d ℝ) :
    Pick.nextState s = rk4Step CRTBP.Direction IntegrationStepSize s := by
  have h2 : (2.0 : ℝ) = 2 := by norm_num
  have h6 : (6.0 : ℝ) = 6 := by norm_num
  simp only [Pick.nextState, rk4Step, h2, h6]

/-- The image of `0, …, n` under `g`: `g 0`, then the image of `0, …, n − 1` under the
shifted `g`. -/
theorem map_range_succ_shift {α : Type} (g : ℕ → α) (n : ℕ) :
    (List.range (n + 1)).map g = g 0 :: (List.range n).map fun j => g (j + 1) := by
  rw [List.range_succ_eq_map, List.map_cons, List.map_map]
  rfl

/-- The points after the integration loop, started at the counter `i` with `m` passes to
go and fuel for them: the points so far, followed by the positions of the next `m`
states. -/
theorem integrate_points (m : ℕ) :
    ∀ (fuel i : ℕ) (state : Vector4d ℝ) (prevId : ℕ) (points : List (Vector3d ℝ))
      (lines : List (ℕ × ℕ)), i + m = NumIntegrationSteps → m ≤ fuel →
      (Pick.integrate fuel i state prevId points lines).1 =
        points ++ (List.range m).map fun j =>
          (⟨(Pick.nextState^[j + 1] state).x, (Pick.nextState^[j + 1] state).y, 0⟩ : Vector3d ℝ) := by
  induction m with
  | zero =>
    intro fuel i state prevId points lines hi _
    have hlt : ¬ i < NumIntegrationSteps := by omega
    cases fuel with
    | zero => simp [Pick.integrate]
    | succ fuel => simp [Pick.integrate, hlt]
  | succ m ih =>
    intro fuel i state prevId points lines hi hf
    have hlt : i < NumIntegrationSteps := by omega
    cases fuel with
    | zero => omega
    | succ fuel =>
      rw [Pick.integrate]
      simp only [hlt, if_true]
      rw [ih fuel (i + 1) _ _ _ _ (by omega) (by omega), map_range_succ_shift, List.append_assoc,
        List.singleton_append, point_zero_height]
      rfl

/-- The points of the trajectory after `Pick`: the positions of the first
`NumIntegrationSteps` Runge–Kutta iterates of the initial state. -/
theorem Pick_points (tr : Tracer ℝ) (pnt : Vector3d ℝ) :
    (Pick tr pnt).points =
      (List.range NumIntegrationSteps).map fun k =>
        (⟨(Pick.nextState^[k] (Pick.initialState pnt)).x,
          (Pick.nextState^[k] (Pick.initialState pnt)).y, 0⟩ : Vector3d ℝ) := by
  obtain ⟨m, hm⟩ : ∃ m, NumIntegrationSteps = m + 1 := ⟨999, rfl⟩
  have h := integrate_points m NumIntegrationSteps 1 (Pick.initialState pnt) 0
    [⟨(Pick.initialState pnt).x, (Pick.initialState pnt).y, 0.0⟩] [] (by omega) (by omega)
  have hp : (Pick tr pnt).points = (Pick.integrate NumIntegrationSteps 1 (Pick.initialState pnt) 0
    [⟨(Pick.initialState pnt).x, (Pick.initialState pnt).y, 0.0⟩] []).1 := rfl
  rw [hp, h, point_zero_height, hm, map_range_succ_shift, List.singleton_append]
  rfl

/-- The number of points of the trajectory after `Pick`. -/
theorem Pick_points_length (tr : Tracer ℝ) (pnt : Vector3d ℝ) :
    (Pick tr pnt).points.length = NumIntegrationSteps := by
  rw [Pick_points, List.length_map, List.length_range]

/-- C10: every index `k` of the position sequence produced by `Pick` holds the `(x, y)`
part of the state after `k` classical Runge–Kutta steps on `Direction` with `h = 0.005`,
starting from the state (picked x, picked y, initial velocity); the point at index 0 is the
picked `(x, y)`, whatever the picked `z`. -/
theorem Pick_points_rk4 (tr : Tracer ℝ) (pnt : Vector3d ℝ) (k : ℕ)
    (hk : k < (Pick tr pnt).points.length) :
    (Pick tr pnt).points[k]? =
        some ⟨((rk4Step CRTBP.Direction 0.005)^[k]
                ⟨pnt.x, pnt.y, (Pick.initialState pnt).z, (Pick.initialState pnt).w⟩).x,
              ((rk4Step CRTBP.Direction 0.005)^[k]
                ⟨pnt.x, pnt.y, (Pick.initialState pnt).z, (Pick.initialState pnt).w⟩).y, 0⟩ ∧
      (Pick tr pnt).points[0]? = some ⟨pnt.x, pnt.y, 0⟩ := by
  have hf : Pick.nextState = rk4Step CRTBP.Direction (0.005 : ℝ) :=
    funext fun s => nextState_eq_rk4Step s
  have hs : (⟨pnt.x, pnt.y, (Pick.initialState pnt).z, (Pick.initialState pnt).w⟩ : Vector4d ℝ)
      = Pick.initialState pnt := rfl
  rw [Pick_points_length] at hk
  have h0 : 0 < NumIntegrationSteps := by
    unfold NumIntegrationSteps
    norm_num
  rw [hs, ← hf, Pick_points]
  constructor
  · rw [List.getElem?_map, List.getElem?_range hk]
    rfl
  · rw [List.getElem?_map, List.getElem?_range h0]
    rfl

end Tracer

namespace Tracer

/-- Instance of `Pick_points_rk4` at the pick of the constructor, `(1.019, −0.008, 0)`,
and the index `1`. -/
theorem Pick_points_rk4_witness :
    1 < (Pick (⟨[], [], []⟩ : Tracer ℝ) ⟨1.019, -0.008, 0.0⟩).points.length ∧
      (Pick (⟨[], [], []⟩ : Tracer ℝ) ⟨1.019, -0.008, 0.0⟩).points[1]? =
        some ⟨((rk4Step CRTBP.Direction 0.005)^[1]
                ⟨1.019, -0.008, (Pick.initialState (⟨1.019, -0.008, 0.0⟩ : Vector3d ℝ)).z,
                  (Pick.initialState (⟨1.019, -0.008, 0.0⟩ : Vector3d ℝ)).w⟩).x,
              ((rk4Step CRTBP.Direction 0.005)^[1]
                ⟨1.019, -0.008, (Pick.initialState (⟨1.019, -0.008, 0.0⟩ : Vector3d ℝ)).z,
                  (Pick.initialState (⟨1.019, -0.008, 0.0⟩ : Vector3d ℝ)).w⟩).y, 0⟩ ∧
      (Pick (⟨[], [], []⟩ : Tracer ℝ) ⟨1.019, -0.008, 0.0⟩).points[0]? =
        some ⟨1.019, -0.008, 0⟩ :=
  have hlen : 1 < (Pick (⟨[], [], []⟩ : Tracer ℝ) ⟨1.019, -0.008, 0.0⟩).points.length := by
    rw [Pick_points_length]
    unfold NumIntegrationSteps
    norm_num
  ⟨hlen, Pick_points_rk4 ⟨[], [], []⟩ ⟨1.019, -0.008, 0.0⟩ 1 hlen⟩

end Tracer

namespace LagrangePoints

/-- The Hessian at the first guess `(0.8, 0)` has a non-zero determinant. -/
theorem det_Hessian_first_guess :
    det (CRTBP.PseudoPotentialHessian (⟨0.8, 0⟩ : Vector2d ℝ)) ≠ 0 := by
  have e1 : Real.sqrt (0 * 0 + (-0.8 - CRTBP.mu + 1) ^ 2) = (0.18 : ℝ) := by
    rw [show (0 : ℝ) * 0 + (-0.8 - CRTBP.mu + 1) ^ 2 = 0.18 ^ 2 by norm_num [CRTBP.mu]]
    exact Real.sqrt_sq (by norm_num)
  have e2 : Real.sqrt (0 * 0 + (-0.8 - CRTBP.mu) ^ 2) = (0.82 : ℝ) := by
    rw [show (0 : ℝ) * 0 + (-0.8 - CRTBP.mu) ^ 2 = 0.82 ^ 2 by norm_num [CRTBP.mu]]
    exact Real.sqrt_sq (by norm_num)
  rw [CRTBP.PseudoPotentialHessian_real]
  simp only [det, e1, e2]
  norm_num [CRTBP.mu, CRTBP.omega]

/-- Instance of `FindPoint_newton_iteration` at the first guess `(0.8, 0)`, where the
Hessian has an inverse. -/
theorem FindPoint_newton_iteration_witness :
    det (CRTBP.PseudoPotentialHessian (⟨0.8, 0⟩ : Vector2d ℝ)) ≠ 0 ∧
    ∃ n, 1 ≤ n ∧ n ≤ 10 ∧ FindPoint (⟨0.8, 0⟩ : Vector2d ℝ) = newtonStep^[n] (⟨0.8, 0⟩ : Vector2d ℝ) ∧
      (∀ j, j + 1 < n → ¬ Vector2d.norm (newtonDx (newtonStep^[j] (⟨0.8, 0⟩ : Vector2d ℝ))) < 1e-8) ∧
      (n = 10 ∨ Vector2d.norm (newtonDx (newtonStep^[n - 1] (⟨0.8, 0⟩ : Vector2d ℝ))) < 1e-8) ∧
      (∀ j, j < n →
        newtonStep^[j + 1] (⟨0.8, 0⟩ : Vector2d ℝ) =
          Vector2d.sub (newtonStep^[j] (⟨0.8, 0⟩ : Vector2d ℝ)) (newtonDx (newtonStep^[j] (⟨0.8, 0⟩ : Vector2d ℝ))) ∧
        (det (CRTBP.PseudoPotentialHessian (newtonStep^[j] (⟨0.8, 0⟩ : Vector2d ℝ))) ≠ 0 →
          Matrix2d.mulVec (CRTBP.PseudoPotentialHessian (newtonStep^[j] (⟨0.8, 0⟩ : Vector2d ℝ)))
            (newtonDx (newtonStep^[j] (⟨0.8, 0⟩ : Vector2d ℝ))) =
              CRTBP.PseudoPotentialGrad (newtonStep^[j] (⟨0.8, 0⟩ : Vector2d ℝ)))) :=
  ⟨det_Hessian_first_guess, FindPoint_newton_iteration ⟨0.8, 0⟩⟩

end LagrangePoints

/-! ## Soundness of the interval arithmetic -/

namespace Ival

/-- Rounding down does not increase. -/
theorem rdown_le (q : ℚ) : ((rdown q : ℚ) : ℝ) ≤ (q : ℝ) := by
  have h : rdown q ≤ q := by
    unfold rdown
    rw [div_le_iff₀ (by positivity)]
    exact Int.floor_le _
  exact_mod_cast h

/-- Rounding up does not decrease. -/
theorem le_rup (q : ℚ) : (q : ℝ) ≤ ((rup q : ℚ) : ℝ) := by
  have h : q ≤ rup q := by
    unfold rup
    rw [le_div_iff₀ (by positivity)]
    exact Int.le_ceil _
  exact_mod_cast h

/-- A rational lies in its own point interval. -/
theorem mem_point (q : ℚ) : Mem (q : ℝ) (point q) := ⟨le_refl _, le_refl _⟩

/-- The sum is enclosed. -/
theorem mem_add {x y : ℝ} {a b : Ival} (hx : Mem x a) (hy : Mem y b) :
    Mem (x + y) (add a b) := by
  constructor
  · simp only [add, Rat.cast_add]
    exact add_le_add hx.1 hy.1
  · simp only [add, Rat.cast_add]
    exact add_le_add hx.2 hy.2

/-- The opposite is enclosed. -/
theorem mem_neg {x : ℝ} {a : Ival} (hx : Mem x a) : Mem (-x) (neg a) := by
  constructor
  · simp only [neg, Rat.cast_neg]
    exact neg_le_neg hx.2
  · simp only [neg, Rat.cast_neg]
    exact neg_le_neg hx.1

/-- The difference is enclosed. -/
theorem mem_sub {x y : ℝ} {a b : Ival} (hx : Mem x a) (hy : Mem y b) :
    Mem (x - y) (sub a b) := by
  constructor
  · simp only [sub, Rat.cast_sub]
    exact sub_le_sub hx.1 hy.2
  · simp only [sub, Rat.cast_sub]
    exact sub_le_sub hx.2 hy.1

/-- A product of two reals, each between two bounds, lies between the least and the
greatest product of the bounds. -/
theorem mul_between {x y a b c d : ℝ} (hxa : a ≤ x) (hxb : x ≤ b) (hyc : c ≤ y) (hyd : y ≤ d) :
    min (min (a * c) (a * d)) (min (b * c) (b * d)) ≤ x * y ∧
      x * y ≤ max (max (a * c) (a * d)) (max (b * c) (b * d)) := by
  constructor
  · rcases le_total 0 x with h0 | h0
    · have h1 : x * c ≤ x * y := mul_le_mul_of_nonneg_left hyc h0
      rcases le_total 0 c with hc | hc
      · have h2 : a * c ≤ x * c := mul_le_mul_of_nonneg_right hxa hc
        exact le_trans (le_trans (min_le_left _ _) (min_le_left _ _)) (le_trans h2 h1)
      · have h2 : b * c ≤ x * c := mul_le_mul_of_nonpos_right hxb hc
        exact le_trans (le_trans (min_le_right _ _) (min_le_left _ _)) (le_trans h2 h1)
    · have h1 : x * d ≤ x * y := mul_le_mul_of_nonpos_left hyd h0
      rcases le_total 0 d with hd | hd
      · have h2 : a * d ≤ x * d := mul_le_mul_of_nonneg_right hxa hd
        exact le_trans (le_trans (min_le_left _ _) (min_le_right _ _)) (le_trans h2 h1)
      · have h2 : b * d ≤ x * d := mul_le_mul_of_nonpos_right hxb hd
        exact le_trans (le_trans (min_le_right _ _) (min_le_right _ _)) (le_trans h2 h1)
  · rcases le_total 0 x with h0 | h0
    · have h1 : x * y ≤ x * d := mul_le_mul_of_nonneg_left hyd h0
      rcases le_total 0 d with hd | hd
      · have h2 : x * d ≤ b * d := mul_le_mul_of_nonneg_right hxb hd
        exact le_trans (le_trans h1 h2) (le_trans (le_max_right _ _) (le_max_right _ _))
      · have h2 : x * d ≤ a * d := mul_le_mul_of_nonpos_right hxa hd
        exact le_trans (le_trans h1 h2) (le_trans (le_max_right _ _) (le_max_left _ _))
    · have h1 : x * y ≤ x * c := mul_le_mul_of_nonpos_left hyc h0
      rcases le_total 0 c with hc | hc
      · have h2 : x * c ≤ b * c := mul_le_mul_of_nonneg_right hxb hc
        exact le_trans (le_trans h1 h2) (le_trans (le_max_left _ _) (le_max_right _ _))
      · have h2 : x * c ≤ a * c := mul_le_mul_of_nonpos_right hxa hc
        exact le_trans (le_trans h1 h2) (le_trans (le_max_left _ _) (le_max_left _ _))

/-- The product is enclosed. -/
theorem mem_mul {x y : ℝ} {a b : Ival} (hx : Mem x a) (hy : Mem y b) :
    Mem (x * y) (mul a b) := by
  obtain ⟨h1, h2⟩ := mul_between hx.1 hx.2 hy.1 hy.2
  constructor
  · refine le_trans (rdown_le _) ?_
    push_cast
    exact h1
  · refine le_trans ?_ (le_rup _)
    push_cast
    exact h2

/-- The inverse is enclosed, on an interval away from zero. -/
theorem mem_inv {x : ℝ} {a : Ival} (hok : invOk a = true) (hx : Mem x a) :
    Mem x⁻¹ (inv a) := by
  simp only [invOk, Bool.or_eq_true, decide_eq_true_eq] at hok
  rcases hok with hpos | hneg
  · have hlo : (0 : ℝ) < a.lo := by exact_mod_cast hpos
    have hx0 : 0 < x := lt_of_lt_of_le hlo hx.1
    constructor
    · refine le_trans (rdown_le _) ?_
      push_cast
      exact inv_anti₀ hx0 hx.2
    · refine le_trans ?_ (le_rup _)
      push_cast
      exact inv_anti₀ hlo hx.1
  · have hhi : (a.hi : ℝ) < 0 := by exact_mod_cast hneg
    have hx0 : x < 0 := lt_of_le_of_lt hx.2 hhi
    constructor
    · refine le_trans (rdown_le _) ?_
      push_cast
      exact (inv_le_inv_of_neg hhi hx0).mpr hx.2
    · refine le_trans ?_ (le_rup _)
      push_cast
      have hlo : (a.lo : ℝ) < 0 := lt_of_le_of_lt hx.1 hx0
      exact (inv_le_inv_of_neg hx0 hlo).mpr hx.1

/-- The absolute value is enclosed. -/
theorem mem_abs {x : ℝ} {a : Ival} (hx : Mem x a) : Mem |x| (abs a) := by
  unfold abs
  split_ifs with h1 h2
  · have h0 : (0 : ℝ) ≤ a.lo := by exact_mod_cast h1
    rw [abs_of_nonneg (le_trans h0 hx.1)]
    exact hx
  · have h0 : (a.hi : ℝ) ≤ 0 := by exact_mod_cast h2
    rw [abs_of_nonpos (le_trans hx.2 h0)]
    exact mem_neg hx
  · constructor
    · simp only [Rat.cast_zero]
      exact abs_nonneg x
    · simp only [Rat.cast_max, Rat.cast_neg]
      rw [abs_le]
      constructor
      · have := le_max_left (-(a.lo : ℝ)) a.hi
        linarith [hx.1]
      · exact le_trans hx.2 (le_max_right _ _)

/-- The square root is enclosed, when the candidate endpoints pass the check. -/
theorem mem_sqrt {x : ℝ} {a : Ival} (hok : sqrtOk a = true) (hx : Mem x a) :
    Mem (Real.sqrt x) (sqrt a) := by
  simp only [sqrtOk, Bool.and_eq_true, decide_eq_true_eq] at hok
  obtain ⟨⟨⟨h1, h2⟩, h3⟩, h4⟩ := hok
  have h1r : (0 : ℝ) ≤ (sqrt a).lo := by exact_mod_cast h1
  have h2r : ((sqrt a).lo : ℝ) * (sqrt a).lo ≤ a.lo := by exact_mod_cast h2
  have h3r : (0 : ℝ) ≤ (sqrt a).hi := by exact_mod_cast h3
  have h4r : (a.hi : ℝ) ≤ (sqrt a).hi * (sqrt a).hi := by exact_mod_cast h4
  constructor
  · apply Real.le_sqrt_of_sq_le
    rw [pow_two]
    exact le_trans h2r hx.1
  · rw [Real.sqrt_le_left h3r, pow_two]
    exact le_trans hx.2 h4r

end Ival

/-! ## C9: the five Lagrange points, by interval arithmetic -/

namespace LagrangePoints

open Ival

/-- The mass ratio is `1/50`. -/
theorem mem_mu : Mem (CRTBP.mu : ℝ) (point (1 / 50)) := by
  have h : (CRTBP.mu : ℝ) = ((1 / 50 : ℚ) : ℝ) := by
    simp only [CRTBP.mu]
    norm_num
  rw [h]
  exact mem_point _

/-- The mass fraction of the primary is `49/50`. -/
theorem mem_one_sub_mu : Mem (1 - (CRTBP.mu : ℝ)) (point (49 / 50)) := by
  have h : 1 - (CRTBP.mu : ℝ) = ((49 / 50 : ℚ) : ℝ) := by
    simp only [CRTBP.mu]
    norm_num
  rw [h]
  exact mem_point _

/-- One lies in its point interval. -/
theorem mem_one : Mem (1 : ℝ) (point 1) := by
  have h := mem_point 1
  simpa using h

/-- The square is enclosed. -/
theorem mem_sq {x : ℝ} {a : Ival} (hx : Mem x a) : Mem (x ^ 2) (mul a a) := by
  rw [pow_two]
  exact mem_mul hx hx

/-- The cube is enclosed. -/
theorem mem_cube {x : ℝ} {a : Ival} (hx : Mem x a) : Mem (x ^ 3) (mul a (mul a a)) := by
  rw [show x ^ 3 = x * (x * x) by ring]
  exact mem_mul hx (mem_mul hx hx)

/-- The fifth power is enclosed. -/
theorem mem_pow_five {x : ℝ} {a : Ival} (hx : Mem x a) :
    Mem (x ^ 5) (mul (mul a (mul a a)) (mul a a)) := by
  rw [show x ^ 5 = x * (x * x) * (x * x) by ring]
  exact mem_mul (mem_mul hx (mem_mul hx hx)) (mem_mul hx hx)

/-- The shared quantities are enclosed. -/
theorem kernelsI_sound {x y : ℝ} {X Y : Ival} (hx : Mem x X) (hy : Mem y Y)
    (hok : (kernelsI X Y).ok = true) :
    Mem (-x - CRTBP.mu + 1) (kernelsI X Y).a ∧ Mem (-x - CRTBP.mu) (kernelsI X Y).b ∧
      Mem (Real.sqrt (y * y + (-x - CRTBP.mu + 1) ^ 2) ^ 3)⁻¹ (kernelsI X Y).k1 ∧
      Mem (Real.sqrt (y * y + (-x - CRTBP.mu) ^ 2) ^ 3)⁻¹ (kernelsI X Y).k2 ∧
      Mem (Real.sqrt (y * y + (-x - CRTBP.mu + 1) ^ 2) ^ 5)⁻¹ (kernelsI X Y).q1 ∧
      Mem (Real.sqrt (y * y + (-x - CRTBP.mu) ^ 2) ^ 5)⁻¹ (kernelsI X Y).q2 := by
  simp only [kernelsI, Bool.and_eq_true] at hok
  obtain ⟨⟨⟨⟨⟨o1, o2⟩, o3⟩, o4⟩, o5⟩, o6⟩ := hok
  have ha : Mem (-x - CRTBP.mu + 1) (add (sub (neg X) (point (1 / 50))) (point 1)) :=
    mem_add (mem_sub (mem_neg hx) mem_mu) mem_one
  have hb : Mem (-x - CRTBP.mu) (sub (neg X) (point (1 / 50))) := mem_sub (mem_neg hx) mem_mu
  have hr1 := mem_sqrt o1 (mem_add (mem_mul hy hy) (mem_sq ha))
  have hr2 := mem_sqrt o2 (mem_add (mem_mul hy hy) (mem_sq hb))
  exact ⟨ha, hb, mem_inv o3 (mem_cube hr1), mem_inv o4 (mem_cube hr2),
    mem_inv o5 (mem_pow_five hr1), mem_inv o6 (mem_pow_five hr2)⟩

/-- The gradient is enclosed. -/
theorem gradI_sound {x y : ℝ} {X Y : Ival} (hx : Mem x X) (hy : Mem y Y)
    (hok : (kernelsI X Y).ok = true) :
    IVec.Mem (CRTBP.PseudoPotentialGrad (⟨x, y⟩ : Vector2d ℝ)) (gradI X Y (kernelsI X Y)) := by
  obtain ⟨ha, hb, hk1, hk2, _, _⟩ := kernelsI_sound hx hy hok
  have hω : (CRTBP.omega : ℝ) * CRTBP.omega = 1 := by norm_num [CRTBP.omega]
  rw [CRTBP.PseudoPotentialGrad_real]
  simp only [hω, one_mul]
  exact ⟨mem_add (mem_add (mem_mul (mem_mul mem_mu ha) hk1)
      (mem_mul (mem_mul mem_one_sub_mu hb) hk2)) hx,
    mem_add (mem_sub (mem_mul (mem_neg (mem_mul mem_mu hy)) hk1)
      (mem_mul (mem_mul mem_one_sub_mu hy) hk2)) hy⟩

/-- The entries of the Hessian, grouped as `hessI` computes them. -/
theorem hessian_grouped (a b y k1 k2 q1 q2 : ℝ) :
    (-CRTBP.mu * k1 + 3 * CRTBP.mu * a ^ 2 * q1 - (1 - CRTBP.mu) * k2
          + 3 * (1 - CRTBP.mu) * b ^ 2 * q2 + CRTBP.omega * CRTBP.omega
        = ((-(1 / 50 : ℚ) : ℚ) : ℝ) * k1 - ((49 / 50 : ℚ) : ℝ) * k2
          + ((3 / 50 : ℚ) : ℝ) * (a * a) * q1 + ((147 / 50 : ℚ) : ℝ) * (b * b) * q2
          + ((1 : ℚ) : ℝ)) ∧
      (-(3 * CRTBP.mu * a * y) * q1 - 3 * (1 - CRTBP.mu) * b * y * q2
        = -(((3 / 50 : ℚ) : ℝ) * (a * y)) * q1 - ((147 / 50 : ℚ) : ℝ) * (b * y) * q2) ∧
      (-CRTBP.mu * k1 + 3 * CRTBP.mu * (y * y) * q1 - (1 - CRTBP.mu) * k2
          + 3 * (1 - CRTBP.mu) * (y * y) * q2 + CRTBP.omega * CRTBP.omega
        = ((-(1 / 50 : ℚ) : ℚ) : ℝ) * k1 - ((49 / 50 : ℚ) : ℝ) * k2
          + ((3 / 50 : ℚ) : ℝ) * (y * y) * q1 + ((147 / 50 : ℚ) : ℝ) * (y * y) * q2
          + ((1 : ℚ) : ℝ)) := by
  simp only [CRTBP.mu, CRTBP.omega]
  push_cast
  refine ⟨?_, ?_, ?_⟩ <;> ring

/-- The Hessian is enclosed, entry by entry. -/
theorem hessI_sound {x y : ℝ} {X Y : Ival} (hx : Mem x X) (hy : Mem y Y)
    (hok : (kernelsI X Y).ok = true) :
    Mem (CRTBP.PseudoPotentialHessian (⟨x, y⟩ : Vector2d ℝ)).m00 (hessI Y (kernelsI X Y)).m00 ∧
      Mem (CRTBP.PseudoPotentialHessian (⟨x, y⟩ : Vector2d ℝ)).m01 (hessI Y (kernelsI X Y)).m01 ∧
      Mem (CRTBP.PseudoPotentialHessian (⟨x, y⟩ : Vector2d ℝ)).m10 (hessI Y (kernelsI X Y)).m10 ∧
      Mem (CRTBP.PseudoPotentialHessian (⟨x, y⟩ : Vector2d ℝ)).m11 (hessI Y (kernelsI X Y)).m11 := by
  obtain ⟨ha, hb, hk1, hk2, hq1, hq2⟩ := kernelsI_sound hx hy hok
  obtain ⟨e1, e2, e3⟩ := hessian_grouped (-x - CRTBP.mu + 1) (-x - CRTBP.mu) y
    (Real.sqrt (y * y + (-x - CRTBP.mu + 1) ^ 2) ^ 3)⁻¹
    (Real.sqrt (y * y + (-x - CRTBP.mu) ^ 2) ^ 3)⁻¹
    (Real.sqrt (y * y + (-x - CRTBP.mu + 1) ^ 2) ^ 5)⁻¹
    (Real.sqrt (y * y + (-x - CRTBP.mu) ^ 2) ^ 5)⁻¹
  rw [CRTBP.PseudoPotentialHessian_real]
  simp only [e1, e2, e3]
  have hdiag := mem_sub (mem_mul (mem_point (-(1 / 50))) hk1) (mem_mul (mem_point (49 / 50)) hk2)
  have hxy := mem_sub (mem_mul (mem_neg (mem_mul (mem_point (3 / 50)) (mem_mul ha hy))) hq1)
    (mem_mul (mem_mul (mem_point (147 / 50)) (mem_mul hb hy)) hq2)
  exact ⟨mem_add (mem_add (mem_add hdiag (mem_mul (mem_mul (mem_point (3 / 50)) (mem_mul ha ha)) hq1))
      (mem_mul (mem_mul (mem_point (147 / 50)) (mem_mul hb hb)) hq2)) (mem_point 1),
    hxy, hxy,
    mem_add (mem_add (mem_add hdiag (mem_mul (mem_mul (mem_point (3 / 50)) (mem_mul hy hy)) hq1))
      (mem_mul (mem_mul (mem_point (147 / 50)) (mem_mul hy hy)) hq2)) (mem_point 1)⟩

/-- The pivot choice on intervals is the pivot choice at every matrix inside. -/
theorem pivotI_sound {H : Matrix2d ℝ} {HI : IMat} {swap : Bool} (h00 : Mem H.m00 HI.m00)
    (h10 : Mem H.m10 HI.m10) (hp : pivotI HI = some swap) :
    decide (|H.m00| < |H.m10|) = swap := by
  have a0 := mem_abs h00
  have a1 := mem_abs h10
  unfold pivotI at hp
  split_ifs at hp with c1 c2
  · have hc : ((Ival.abs HI.m00).hi : ℝ) < (Ival.abs HI.m10).lo := by exact_mod_cast c1
    have hlt : |H.m00| < |H.m10| := lt_of_le_of_lt a0.2 (lt_of_lt_of_le hc a1.1)
    rw [← Option.some.inj hp]
    exact decide_eq_true hlt
  · have hc : ((Ival.abs HI.m10).hi : ℝ) ≤ (Ival.abs HI.m00).lo := by exact_mod_cast c2
    have hnlt : ¬ |H.m00| < |H.m10| := not_lt.mpr (le_trans a1.2 (le_trans hc a0.1))
    rw [← Option.some.inj hp]
    exact decide_eq_false hnlt

/-- The linear solve is enclosed. -/
theorem luSolveI_sound {H : Matrix2d ℝ} {v : Vector2d ℝ} {HI : IMat} {vI : IVec} {swap : Bool}
    (h00 : Mem H.m00 HI.m00) (h01 : Mem H.m01 HI.m01) (h10 : Mem H.m10 HI.m10)
    (h11 : Mem H.m11 HI.m11) (hv : IVec.Mem v vI) (hp : pivotI HI = some swap)
    (hok : (luSolveI swap HI vI).2 = true) :
    IVec.Mem (luSolve H v) (luSolveI swap HI vI).1 := by
  have hsw := pivotI_sound h00 h10 hp
  obtain ⟨hvx, hvy⟩ := hv
  simp only [luSolveI, Bool.and_eq_true] at hok
  obtain ⟨o1, o2⟩ := hok
  simp only [luSolve, hsw, div_eq_mul_inv]
  cases swap with
  | true =>
    simp only [if_true] at o1 o2 ⊢
    have hl := mem_mul h00 (mem_inv o1 h10)
    have hx1 := mem_mul (mem_sub hvx (mem_mul hl hvy)) (mem_inv o2 (mem_sub h01 (mem_mul hl h11)))
    exact ⟨mem_mul (mem_sub hvy (mem_mul h11 hx1)) (mem_inv o1 h10), hx1⟩
  | false =>
    simp only [Bool.false_eq_true, if_false] at o1 o2 ⊢
    have hl := mem_mul h10 (mem_inv o1 h00)
    have hx1 := mem_mul (mem_sub hvy (mem_mul hl hvx)) (mem_inv o2 (mem_sub h11 (mem_mul hl h01)))
    exact ⟨mem_mul (mem_sub hvx (mem_mul h01 hx1)) (mem_inv o1 h00), hx1⟩

/-- The norm is below `1e-8` exactly when the squared norm is below `1e-16`. -/
theorem norm_lt_tol (v : Vector2d ℝ) :
    Vector2d.norm v < 1e-8 ↔ v.x * v.x + v.y * v.y < ((1 / 10 ^ 16 : ℚ) : ℝ) := by
  simp only [Vector2d.norm, Vector2d.squaredNorm, DoubleMath.sqrt_real]
  rw [Real.sqrt_lt' (by norm_num)]
  norm_num

/-- One pass of the loop on a box encloses the pass at every point of the box, and takes
the same branch. -/
theorem stepI_sound {p : Vector2d ℝ} {B B' : IVec} {brk : Bool} (hp : IVec.Mem p B)
    (hs : stepI B = some (B', brk)) :
    IVec.Mem (newtonStep p) B' ∧ (Vector2d.norm (newtonDx p) < 1e-8 ↔ brk = true) := by
  obtain ⟨x, y⟩ := p
  obtain ⟨hx, hy⟩ := hp
  simp only at hx hy
  unfold stepI at hs
  simp only at hs
  split at hs
  · exact absurd hs (by simp)
  · rename_i swap hpiv
    split_ifs at hs with hok hbrk hnb
    · simp only [Bool.and_eq_true] at hok
      obtain ⟨hK, hlu⟩ := hok
      obtain ⟨H00, H01, H10, H11⟩ := hessI_sound hx hy hK
      have hdx := luSolveI_sound H00 H01 H10 H11 (gradI_sound hx hy hK) hpiv hlu
      have hn := mem_add (mem_mul hdx.1 hdx.1) (mem_mul hdx.2 hdx.2)
      obtain ⟨hB, hb⟩ := Prod.mk.inj (Option.some.inj hs)
      subst hB hb
      refine ⟨⟨mem_sub hx hdx.1, mem_sub hy hdx.2⟩, ?_⟩
      simp only [iff_true]
      rw [norm_lt_tol]
      have hc : (((Ival.add (Ival.mul (luSolveI swap (hessI B.y (kernelsI B.x B.y))
          (gradI B.x B.y (kernelsI B.x B.y))).1.x (luSolveI swap (hessI B.y (kernelsI B.x B.y))
          (gradI B.x B.y (kernelsI B.x B.y))).1.x) (Ival.mul (luSolveI swap (hessI B.y
          (kernelsI B.x B.y)) (gradI B.x B.y (kernelsI B.x B.y))).1.y (luSolveI swap (hessI B.y
          (kernelsI B.x B.y)) (gradI B.x B.y (kernelsI B.x B.y))).1.y)).hi : ℚ) : ℝ)
          < ((1 / 10 ^ 16 : ℚ) : ℝ) := by exact_mod_cast hbrk
      exact lt_of_le_of_lt hn.2 hc
    · simp only [Bool.and_eq_true] at hok
      obtain ⟨hK, hlu⟩ := hok
      obtain ⟨H00, H01, H10, H11⟩ := hessI_sound hx hy hK
      have hdx := luSolveI_sound H00 H01 H10 H11 (gradI_sound hx hy hK) hpiv hlu
      have hn := mem_add (mem_mul hdx.1 hdx.1) (mem_mul hdx.2 hdx.2)
      obtain ⟨hB, hb⟩ := Prod.mk.inj (Option.some.inj hs)
      subst hB hb
      refine ⟨⟨mem_sub hx hdx.1, mem_sub hy hdx.2⟩, ?_⟩
      simp only [Bool.false_eq_true, iff_false, not_lt]
      have hc : ((1 / 10 ^ 16 : ℚ) : ℝ) ≤ (((Ival.add (Ival.mul (luSolveI swap (hessI B.y
          (kernelsI B.x B.y)) (gradI B.x B.y (kernelsI B.x B.y))).1.x (luSolveI swap (hessI B.y
          (kernelsI B.x B.y)) (gradI B.x B.y (kernelsI B.x B.y))).1.x) (Ival.mul (luSolveI swap
          (hessI B.y (kernelsI B.x B.y)) (gradI B.x B.y (kernelsI B.x B.y))).1.y (luSolveI swap
          (hessI B.y (kernelsI B.x B.y)) (gradI B.x B.y (kernelsI B.x B.y))).1.y)).lo : ℚ) : ℝ) := by
        exact_mod_cast hnb
      have h2 := le_trans hc hn.1
      rw [← not_lt, norm_lt_tol]
      exact not_lt.mpr h2

/-- The loop on boxes encloses the loop of `FindPoint` at every point of the box, for a
pass on boxes that encloses the pass at every point and takes the same branch. -/
theorem loopWith_sound (step : IVec → Option (IVec × Bool))
    (hstep : ∀ {p : Vector2d ℝ} {B B' : IVec} {brk : Bool}, IVec.Mem p B →
      step B = some (B', brk) →
      IVec.Mem (newtonStep p) B' ∧ (Vector2d.norm (newtonDx p) < 1e-8 ↔ brk = true))
    (n : ℕ) : ∀ {p : Vector2d ℝ} {B B' : IVec}, IVec.Mem p B →
    loopWith step n B = some B' → IVec.Mem (FindPoint.loop n p) B' := by
  induction n with
  | zero =>
    intro p B B' hp hl
    rw [loopWith] at hl
    cases hl
    exact hp
  | succ n ih =>
    intro p B B' hp hl
    rw [loopWith] at hl
    cases hs : step B with
    | none =>
      rw [hs] at hl
      exact absurd hl (by simp)
    | some r =>
      obtain ⟨B1, brk⟩ := r
      obtain ⟨hm, hb⟩ := hstep hp hs
      rw [hs] at hl
      cases brk with
      | true =>
        simp only [Option.some.injEq] at hl
        subst hl
        have hlt : Vector2d.norm (newtonDx p) < 1e-8 := hb.mpr rfl
        have e : FindPoint.loop (n + 1) p = newtonStep p := by
          simp only [FindPoint.loop, hlt, if_true, newtonStep]
        rw [e]
        exact hm
      | false =>
        simp only at hl
        have hlt : ¬ Vector2d.norm (newtonDx p) < 1e-8 := fun h => by
          have := hb.mp h
          exact absurd this (by simp)
        have e : FindPoint.loop (n + 1) p = FindPoint.loop n (newtonStep p) := by
          simp only [FindPoint.loop, hlt, if_false, newtonStep]
        rw [e]
        exact ih hm hl

/-- The gradient is shorter than `1e-6` at every point of a box that passes `gradSmallI`. -/
theorem gradSmallI_sound {p : Vector2d ℝ} {B : IVec} (hp : IVec.Mem p B)
    (hg : gradSmallI B = true) : Vector2d.norm (CRTBP.PseudoPotentialGrad p) < 1e-6 := by
  obtain ⟨x, y⟩ := p
  obtain ⟨hx, hy⟩ := hp
  simp only at hx hy
  simp only [gradSmallI, Bool.and_eq_true, decide_eq_true_eq] at hg
  obtain ⟨hK, hlt⟩ := hg
  obtain ⟨g1, g2⟩ := gradI_sound hx hy hK
  have hn := mem_add (mem_mul g1 g1) (mem_mul g2 g2)
  have hc : (((Ival.add (Ival.mul (gradI B.x B.y (kernelsI B.x B.y)).x
      (gradI B.x B.y (kernelsI B.x B.y)).x) (Ival.mul (gradI B.x B.y (kernelsI B.x B.y)).y
      (gradI B.x B.y (kernelsI B.x B.y)).y)).hi : ℚ) : ℝ) < ((1 / 10 ^ 12 : ℚ) : ℝ) := by
    exact_mod_cast hlt
  have h2 := lt_of_le_of_lt hn.2 hc
  simp only [Vector2d.norm, Vector2d.squaredNorm, DoubleMath.sqrt_real]
  rw [Real.sqrt_lt' (by norm_num)]
  refine lt_of_lt_of_le h2 ?_
  norm_num

/-- A seed that passes `checkSeed` leads `FindPoint` to a point where the gradient is
shorter than `1e-6`. -/
theorem checkSeed_sound {qx qy : ℚ} (h : checkSeed qx qy = true) :
    Vector2d.norm (CRTBP.PseudoPotentialGrad (FindPoint (⟨qx, qy⟩ : Vector2d ℝ))) < 1e-6 := by
  have hp : IVec.Mem (⟨qx, qy⟩ : Vector2d ℝ) ⟨Ival.point qx, Ival.point qy⟩ :=
    ⟨mem_point qx, mem_point qy⟩
  unfold checkSeed at h
  cases hB : loopI 10 ⟨Ival.point qx, Ival.point qy⟩ with
  | none =>
    rw [hB] at h
    exact absurd h (by simp [gradSmallAtEnd])
  | some B =>
    rw [hB] at h
    exact gradSmallI_sound (loopWith_sound stepI stepI_sound 10 hp hB) h

/-- The check passes for the seed `(0.8, 0)`. -/
theorem checkSeed_L1 : checkSeed (4 / 5) 0 = true := by decide!

/-- The check passes for the seed `(1.2, 0)`. -/
theorem checkSeed_L2 : checkSeed (6 / 5) 0 = true := by decide!

/-- The check passes for the seed `(−1.0, 0)`. -/
theorem checkSeed_L3 : checkSeed (-1) 0 = true := by decide!

/-- The check passes for the seed `(0.5, 0.8)`. -/
theorem checkSeed_L4 : checkSeed (1 / 2) (4 / 5) = true := by decide!

/-- The check passes for the seed `(0.5, −0.8)`. -/
theorem checkSeed_L5 : checkSeed (1 / 2) (-(4 / 5)) = true := by decide!

/-- C9: the constructor stores `FindPoint` of the five seeds `(0.8, 0)`, `(1.2, 0)`,
`(−1.0, 0)`, `(0.5, 0.8)`, `(0.5, −0.8)` in the order of the seeds, and at each stored
point `PseudoPotentialGrad` has Euclidean magnitude less than `1e-6`. -/
theorem lagrangePoints_gradient_small :
    (lagrangePoints : List (Vector2d ℝ)) =
        [FindPoint ⟨0.8, 0⟩, FindPoint ⟨1.2, 0⟩, FindPoint ⟨-1.0, 0⟩, FindPoint ⟨0.5, 0.8⟩,
          FindPoint ⟨0.5, -0.8⟩] ∧
      ∀ p ∈ (lagrangePoints : List (Vector2d ℝ)),
        Vector2d.norm (CRTBP.PseudoPotentialGrad p) < 1e-6 := by
  have e1 : (⟨0.8, 0⟩ : Vector2d ℝ) = ⟨((4 / 5 : ℚ) : ℝ), ((0 : ℚ) : ℝ)⟩ := by norm_num
  have e2 : (⟨1.2, 0⟩ : Vector2d ℝ) = ⟨((6 / 5 : ℚ) : ℝ), ((0 : ℚ) : ℝ)⟩ := by norm_num
  have e3 : (⟨-1.0, 0⟩ : Vector2d ℝ) = ⟨((-1 : ℚ) : ℝ), ((0 : ℚ) : ℝ)⟩ := by norm_num
  have e4 : (⟨0.5, 0.8⟩ : Vector2d ℝ) = ⟨((1 / 2 : ℚ) : ℝ), ((4 / 5 : ℚ) : ℝ)⟩ := by norm_num
  have e5 : (⟨0.5, -0.8⟩ : Vector2d ℝ) = ⟨((1 / 2 : ℚ) : ℝ), ((-(4 / 5) : ℚ) : ℝ)⟩ := by
    norm_num
  have hl : (lagrangePoints : List (Vector2d ℝ)) =
      [FindPoint ⟨0.8, 0⟩, FindPoint ⟨1.2, 0⟩, FindPoint ⟨-1.0, 0⟩, FindPoint ⟨0.5, 0.8⟩,
        FindPoint ⟨0.5, -0.8⟩] := by
    simp only [lagrangePoints, guesses, List.foldl_cons, List.foldl_nil, List.nil_append,
      List.cons_append]
    norm_num
  refine ⟨hl, fun p hp => ?_⟩
  rw [hl] at hp
  simp only [List.mem_cons, List.mem_singleton, List.not_mem_nil, or_false] at hp
  rcases hp with h | h | h | h | h
  · rw [h, e1]
    exact checkSeed_sound checkSeed_L1
  · rw [h, e2]
    exact checkSeed_sound checkSeed_L2
  · rw [h, e3]
    exact checkSeed_sound checkSeed_L3
  · rw [h, e4]
    exact checkSeed_sound checkSeed_L4
  · rw [h, e5]
    exact checkSeed_sound checkSeed_L5

end LagrangePoints

/-! ## C11: the number of points of the trajectory -/

namespace Tracer

/-- C11, the code at the pick of the constructor, `(1.019, −0.008, 0)`: the position
sequence has `NumIntegrationSteps = 1000` points, the starting position and 999 propagated
points, and not `NumIntegrationSteps + 1 = 1001`. -/
theorem Pick_points_length_constructor :
    (Pick (⟨[], [], []⟩ : Tracer ℝ) ⟨1.019, -0.008, 0.0⟩).points.length = 1000 ∧
      (Pick (⟨[], [], []⟩ : Tracer ℝ) ⟨1.019, -0.008, 0.0⟩).points.length
        ≠ NumIntegrationSteps + 1 := by
  rw [Pick_points_length]
  unfold NumIntegrationSteps
  constructor <;> norm_num

/-! ## C12: the derived initial speed -/

/-- C12: with `U = PseudoPotential(pos)` and `C = 3.139855`, the speed `Pick` derives is
`sqrt(max(2·U − C, 0))`: the argument of the square root is never negative, the speed is
non-negative, it is `sqrt(2·U − C)` when `2·U ≥ C` and `0` when `2·U < C`. -/
theorem Pick_vmag_clamped (pos : Vector2d ℝ) :
    Pick.vmag pos = Real.sqrt (max (2 * CRTBP.PseudoPotential pos - 3.139855) 0) ∧
      0 ≤ max (2 * CRTBP.PseudoPotential pos - 3.139855) 0 ∧
      0 ≤ Pick.vmag pos ∧
      (3.139855 ≤ 2 * CRTBP.PseudoPotential pos →
        Pick.vmag pos = Real.sqrt (2 * CRTBP.PseudoPotential pos - 3.139855)) ∧
      (2 * CRTBP.PseudoPotential pos < 3.139855 → Pick.vmag pos = 0) := by
  have h0 : (0.0 : ℝ) = 0 := by norm_num
  have hv : Pick.vmag pos = Real.sqrt (max (2 * CRTBP.PseudoPotential pos - 3.139855) 0) := by
    simp only [Pick.vmag, DoubleMath.sqrt_real, h0]
  refine ⟨hv, le_max_right _ _, ?_, fun h => ?_, fun h => ?_⟩
  · rw [hv]
    exact Real.sqrt_nonneg _
  · rw [hv, max_eq_left (by linarith)]
  · rw [hv, max_eq_right (by linarith), Real.sqrt_zero]

end Tracer

/-! ## C13 and C18: the initial velocity -/

namespace Tracer

/-- A vector of positive squared norm is divided by its norm. -/
theorem normalize_of_pos (a : Vector2d ℝ) (h : 0 < a.x * a.x + a.y * a.y) :
    Vector2d.normalize a =
      ⟨a.x / Real.sqrt (a.x * a.x + a.y * a.y), a.y / Real.sqrt (a.x * a.x + a.y * a.y)⟩ := by
  simp only [Vector2d.normalize, Vector2d.squaredNorm, DoubleMath.sqrt_real, h, if_true]

/-- A unit vector is left as it is. -/
theorem normalize_of_unit (a : Vector2d ℝ) (h : a.x * a.x + a.y * a.y = 1) :
    Vector2d.normalize a = a := by
  rw [normalize_of_pos a (by rw [h]; exact one_pos), h, Real.sqrt_one, div_one, div_one]

/-- The components of the initial velocity of `Pick`, for a pick away from the Earth. -/
theorem initialState_velocity (pnt : Vector3d ℝ)
    (h : (⟨pnt.x, pnt.y⟩ : Vector2d ℝ) ≠ CRTBP.Earth) :
    (Pick.initialState pnt).z =
        Pick.vmag ⟨pnt.x, pnt.y⟩ *
          (-(pnt.y - 0) / Real.sqrt ((pnt.x - (1 - CRTBP.mu)) ^ 2 + (pnt.y - 0) ^ 2)
              * Real.cos (-0.008)
            - (pnt.x - (1 - CRTBP.mu))
                / Real.sqrt ((pnt.x - (1 - CRTBP.mu)) ^ 2 + (pnt.y - 0) ^ 2)
              * Real.sin (-0.008)) ∧
      (Pick.initialState pnt).w =
        Pick.vmag ⟨pnt.x, pnt.y⟩ *
          (-(pnt.y - 0) / Real.sqrt ((pnt.x - (1 - CRTBP.mu)) ^ 2 + (pnt.y - 0) ^ 2)
              * Real.sin (-0.008)
            + (pnt.x - (1 - CRTBP.mu))
                / Real.sqrt ((pnt.x - (1 - CRTBP.mu)) ^ 2 + (pnt.y - 0) ^ 2)
              * Real.cos (-0.008)) ∧
      -(pnt.y - 0) / Real.sqrt ((pnt.x - (1 - CRTBP.mu)) ^ 2 + (pnt.y - 0) ^ 2)
          * (-(pnt.y - 0) / Real.sqrt ((pnt.x - (1 - CRTBP.mu)) ^ 2 + (pnt.y - 0) ^ 2))
        + (pnt.x - (1 - CRTBP.mu)) / Real.sqrt ((pnt.x - (1 - CRTBP.mu)) ^ 2 + (pnt.y - 0) ^ 2)
          * ((pnt.x - (1 - CRTBP.mu))
            / Real.sqrt ((pnt.x - (1 - CRTBP.mu)) ^ 2 + (pnt.y - 0) ^ 2)) = 1 := by
  have hpos := CRTBP.earth_sq_dist_pos pnt.x pnt.y h
  have e : (pnt.x - (1 - CRTBP.mu)) ^ 2 + (pnt.y - 0) ^ 2
      = pnt.y * pnt.y + (-pnt.x - CRTBP.mu + 1) ^ 2 := by ring
  have hs : 0 < (pnt.x - (1 - CRTBP.mu)) ^ 2 + (pnt.y - 0) ^ 2 := by rw [e]; exact hpos
  have hr : 0 < Real.sqrt ((pnt.x - (1 - CRTBP.mu)) ^ 2 + (pnt.y - 0) ^ 2) := Real.sqrt_pos.mpr hs
  have hsq : Real.sqrt ((pnt.x - (1 - CRTBP.mu)) ^ 2 + (pnt.y - 0) ^ 2) ^ 2
      = (pnt.x - (1 - CRTBP.mu)) ^ 2 + (pnt.y - 0) ^ 2 := Real.sq_sqrt hs.le
  have hn1 : Vector2d.normalize (⟨-(pnt.y - 0), pnt.x - (1 - CRTBP.mu)⟩ : Vector2d ℝ) =
      ⟨-(pnt.y - 0) / Real.sqrt ((pnt.x - (1 - CRTBP.mu)) ^ 2 + (pnt.y - 0) ^ 2),
        (pnt.x - (1 - CRTBP.mu)) / Real.sqrt ((pnt.x - (1 - CRTBP.mu)) ^ 2 + (pnt.y - 0) ^ 2)⟩ := by
    have e2 : -(pnt.y - 0) * -(pnt.y - 0) + (pnt.x - (1 - CRTBP.mu)) * (pnt.x - (1 - CRTBP.mu))
        = (pnt.x - (1 - CRTBP.mu)) ^ 2 + (pnt.y - 0) ^ 2 := by ring
    rw [normalize_of_pos _ (by simp only; rw [e2]; exact hs)]
    simp only [e2]
  have hn2 : ∀ u v : ℝ, u * u + v * v = 1 →
      Vector2d.normalize (⟨u * Real.cos (-0.008) - v * Real.sin (-0.008),
        u * Real.sin (-0.008) + v * Real.cos (-0.008)⟩ : Vector2d ℝ) =
      ⟨u * Real.cos (-0.008) - v * Real.sin (-0.008),
        u * Real.sin (-0.008) + v * Real.cos (-0.008)⟩ := by
    intro u v huv
    apply normalize_of_unit
    simp only
    have hcs := Real.cos_sq_add_sin_sq (-0.008)
    nlinarith [hcs, huv]
  have hunit : -(pnt.y - 0) / Real.sqrt ((pnt.x - (1 - CRTBP.mu)) ^ 2 + (pnt.y - 0) ^ 2)
        * (-(pnt.y - 0) / Real.sqrt ((pnt.x - (1 - CRTBP.mu)) ^ 2 + (pnt.y - 0) ^ 2))
      + (pnt.x - (1 - CRTBP.mu)) / Real.sqrt ((pnt.x - (1 - CRTBP.mu)) ^ 2 + (pnt.y - 0) ^ 2)
        * ((pnt.x - (1 - CRTBP.mu))
          / Real.sqrt ((pnt.x - (1 - CRTBP.mu)) ^ 2 + (pnt.y - 0) ^ 2)) = 1 := by
    generalize Real.sqrt ((pnt.x - (1 - CRTBP.mu)) ^ 2 + (pnt.y - 0) ^ 2) = n at hr hsq
    field_simp
    linear_combination -hsq
  simp only [Pick.initialState, Vector2d.sub, Vector2d.smul, CRTBP.Earth, DoubleMath.cos_real,
    DoubleMath.sin_real, hn1, hn2 _ _ hunit]
  exact ⟨trivial, trivial, hunit⟩

/-- C13: for a picked position `pos` different from the Earth, with `r = pos − Earth`, the
initial velocity is `speed · R(−0.008) · (−r_y, r_x)/|r|`, where `R(θ)` is the
counter-clockwise rotation by `θ`; the vector `(−r_y, r_x)/|r|` is a unit vector and its dot
product with `r` is zero. -/
theorem Pick_initial_velocity (pnt : Vector3d ℝ)
    (h : (⟨pnt.x, pnt.y⟩ : Vector2d ℝ) ≠ CRTBP.Earth) :
    (Pick.initialState pnt).x = pnt.x ∧ (Pick.initialState pnt).y = pnt.y ∧
      (Pick.initialState pnt).z =
        Pick.vmag ⟨pnt.x, pnt.y⟩ *
          (Real.cos (-0.008) *
              (-(pnt.y - (CRTBP.Earth : Vector2d ℝ).y)
                / Real.sqrt ((pnt.x - (CRTBP.Earth : Vector2d ℝ).x) ^ 2
                  + (pnt.y - (CRTBP.Earth : Vector2d ℝ).y) ^ 2))
            - Real.sin (-0.008) *
              ((pnt.x - (CRTBP.Earth : Vector2d ℝ).x)
                / Real.sqrt ((pnt.x - (CRTBP.Earth : Vector2d ℝ).x) ^ 2
                  + (pnt.y - (CRTBP.Earth : Vector2d ℝ).y) ^ 2))) ∧
      (Pick.initialState pnt).w =
        Pick.vmag ⟨pnt.x, pnt.y⟩ *
          (Real.sin (-0.008) *
              (-(pnt.y - (CRTBP.Earth : Vector2d ℝ).y)
                / Real.sqrt ((pnt.x - (CRTBP.Earth : Vector2d ℝ).x) ^ 2
                  + (pnt.y - (CRTBP.Earth : Vector2d ℝ).y) ^ 2))
            + Real.cos (-0.008) *
              ((pnt.x - (CRTBP.Earth : Vector2d ℝ).x)
                / Real.sqrt ((pnt.x - (CRTBP.Earth : Vector2d ℝ).x) ^ 2
                  + (pnt.y - (CRTBP.Earth : Vector2d ℝ).y) ^ 2))) ∧
      (-(pnt.y - (CRTBP.Earth : Vector2d ℝ).y)
            / Real.sqrt ((pnt.x - (CRTBP.Earth : Vector2d ℝ).x) ^ 2
              + (pnt.y - (CRTBP.Earth : Vector2d ℝ).y) ^ 2)) ^ 2
          + ((pnt.x - (CRTBP.Earth : Vector2d ℝ).x)
            / Real.sqrt ((pnt.x - (CRTBP.Earth : Vector2d ℝ).x) ^ 2
              + (pnt.y - (CRTBP.Earth : Vector2d ℝ).y) ^ 2)) ^ 2 = 1 ∧
      (-(pnt.y - (CRTBP.Earth : Vector2d ℝ).y)
            / Real.sqrt ((pnt.x - (CRTBP.Earth : Vector2d ℝ).x) ^ 2
              + (pnt.y - (CRTBP.Earth : Vector2d ℝ).y) ^ 2))
          * (pnt.x - (CRTBP.Earth : Vector2d ℝ).x)
        + ((pnt.x - (CRTBP.Earth : Vector2d ℝ).x)
            / Real.sqrt ((pnt.x - (CRTBP.Earth : Vector2d ℝ).x) ^ 2
              + (pnt.y - (CRTBP.Earth : Vector2d ℝ).y) ^ 2))
          * (pnt.y - (CRTBP.Earth : Vector2d ℝ).y) = 0 := by
  obtain ⟨hz, hw, hu⟩ := initialState_velocity pnt h
  simp only [CRTBP.Earth]
  refine ⟨rfl, rfl, ?_, ?_, ?_, ?_⟩
  · rw [hz]
    ring
  · rw [hw]
    ring
  · linear_combination hu
  · ring

/-- The constructor picks a position different from the Earth. -/
theorem constructor_pick_ne_Earth :
    (⟨(⟨1.019, -0.008, 0.0⟩ : Vector3d ℝ).x, (⟨1.019, -0.008, 0.0⟩ : Vector3d ℝ).y⟩ : Vector2d ℝ)
      ≠ CRTBP.Earth := by
  intro h
  have hy := congrArg Vector2d.y h
  simp only [CRTBP.Earth] at hy
  norm_num at hy

/-- C18: for a picked position at neither body with `2·PseudoPotential(pos) ≥ C`,
`C = 3.139855`, the initial state `(x, y, vx, vy)` of `Pick` is on the level `C`:
`2·PseudoPotential(pos) − (vx² + vy²) = C`, and `vx² + vy²` is the square of the derived
speed. -/
theorem Pick_initial_state_on_level (pnt : Vector3d ℝ) (h : CRTBP.AwayFromBodies pnt.x pnt.y)
    (hC : 3.139855 ≤ 2 * CRTBP.PseudoPotential (⟨pnt.x, pnt.y⟩ : Vector2d ℝ)) :
    2 * CRTBP.PseudoPotential (⟨(Pick.initialState pnt).x, (Pick.initialState pnt).y⟩ : Vector2d ℝ)
        - ((Pick.initialState pnt).z ^ 2 + (Pick.initialState pnt).w ^ 2) = 3.139855 ∧
      (Pick.initialState pnt).z ^ 2 + (Pick.initialState pnt).w ^ 2
        = Pick.vmag ⟨pnt.x, pnt.y⟩ ^ 2 := by
  obtain ⟨hz, hw, hu⟩ := initialState_velocity pnt h.2
  have hcs := Real.cos_sq_add_sin_sq (-0.008)
  have h0 : (0.0 : ℝ) = 0 := by norm_num
  have hv : Pick.vmag (⟨pnt.x, pnt.y⟩ : Vector2d ℝ) ^ 2
      = 2 * CRTBP.PseudoPotential (⟨pnt.x, pnt.y⟩ : Vector2d ℝ) - 3.139855 := by
    simp only [Pick.vmag, DoubleMath.sqrt_real, h0]
    rw [max_eq_left (by linarith), Real.sq_sqrt (by linarith)]
  have hsq : (Pick.initialState pnt).z ^ 2 + (Pick.initialState pnt).w ^ 2
      = Pick.vmag ⟨pnt.x, pnt.y⟩ ^ 2 := by
    rw [hz, hw]
    generalize -(pnt.y - 0) / Real.sqrt ((pnt.x - (1 - CRTBP.mu)) ^ 2 + (pnt.y - 0) ^ 2) = a
      at hu
    generalize (pnt.x - (1 - CRTBP.mu))
      / Real.sqrt ((pnt.x - (1 - CRTBP.mu)) ^ 2 + (pnt.y - 0) ^ 2) = b at hu
    generalize Real.cos (-0.008) = c at hcs
    generalize Real.sin (-0.008) = s at hcs
    generalize Pick.vmag (⟨pnt.x, pnt.y⟩ : Vector2d ℝ) = v
    have e : (v * (a * c - b * s)) ^ 2 + (v * (a * s + b * c)) ^ 2
        = v ^ 2 * ((a * a + b * b) * (c ^ 2 + s ^ 2)) := by ring
    rw [e, hu, hcs]
    ring
  refine ⟨?_, hsq⟩
  rw [hsq, hv]
  show 2 * CRTBP.PseudoPotential (⟨pnt.x, pnt.y⟩ : Vector2d ℝ)
    - (2 * CRTBP.PseudoPotential (⟨pnt.x, pnt.y⟩ : Vector2d ℝ) - 3.139855) = 3.139855
  ring

end Tracer

namespace Tracer

/-- Instance of `Pick_initial_velocity` at the pick of the constructor,
`(1.019, −0.008, 0)`. -/
theorem Pick_initial_velocity_witness :
    (⟨(⟨1.019, -0.008, 0.0⟩ : Vector3d ℝ).x, (⟨1.019, -0.008, 0.0⟩ : Vector3d ℝ).y⟩ : Vector2d ℝ) ≠ CRTBP.Earth ∧
      ((Pick.initialState (⟨1.019, -0.008, 0.0⟩ : Vector3d ℝ)).x = (⟨1.019, -0.008, 0.0⟩ : Vector3d ℝ).x ∧ (Pick.initialState (⟨1.019, -0.008, 0.0⟩ : Vector3d ℝ)).y = (⟨1.019, -0.008, 0.0⟩ : Vector3d ℝ).y ∧
      (Pick.initialState (⟨1.019, -0.008, 0.0⟩ : Vector3d ℝ)).z =
        Pick.vmag ⟨(⟨1.019, -0.008, 0.0⟩ : Vector3d ℝ).x, (⟨1.019, -0.008, 0.0⟩ : Vector3d ℝ).y⟩ *
          (Real.cos (-0.008) *
              (-((⟨1.019, -0.008, 0.0⟩ : Vector3d ℝ).y - (CRTBP.Earth : Vector2d ℝ).y)
                / Real.sqrt (((⟨1.019, -0.008, 0.0⟩ : Vector3d ℝ).x - (CRTBP.Earth : Vector2d ℝ).x) ^ 2
                  + ((⟨1.019, -0.008, 0.0⟩ : Vector3d ℝ).y - (CRTBP.Earth : Vector2d ℝ).y) ^ 2))
            - Real.sin (-0.008) *
              (((⟨1.019, -0.008, 0.0⟩ : Vector3d ℝ).x - (CRTBP.Earth : Vector2d ℝ).x)
                / Real.sqrt (((⟨1.019, -0.008, 0.0⟩ : Vector3d ℝ).x - (CRTBP.Earth : Vector2d ℝ).x) ^ 2
                  + ((⟨1.019, -0.008, 0.0⟩ : Vector3d ℝ).y - (CRTBP.Earth : Vector2d ℝ).y) ^ 2))) ∧
      (Pick.initialState (⟨1.019, -0.008, 0.0⟩ : Vector3d ℝ)).w =
        Pick.vmag ⟨(⟨1.019, -0.008, 0.0⟩ : Vector3d ℝ).x, (⟨1.019, -0.008, 0.0⟩ : Vector3d ℝ).y⟩ *
          (Real.sin (-0.008) *
              (-((⟨1.019, -0.008, 0.0⟩ : Vector3d ℝ).y - (CRTBP.Earth : Vector2d ℝ).y)
                / Real.sqrt (((⟨1.019, -0.008, 0.0⟩ : Vector3d ℝ).x - (CRTBP.Earth : Vector2d ℝ).x) ^ 2
                  + ((⟨1.019, -0.008, 0.0⟩ : Vector3d ℝ).y - (CRTBP.Earth : Vector2d ℝ).y) ^ 2))
            + Real.cos (-0.008) *
              (((⟨1.019, -0.008, 0.0⟩ : Vector3d ℝ).x - (CRTBP.Earth : Vector2d ℝ).x)
                / Real.sqrt (((⟨1.019, -0.008, 0.0⟩ : Vector3d ℝ).x - (CRTBP.Earth : Vector2d ℝ).x) ^ 2
                  + ((⟨1.019, -0.008, 0.0⟩ : Vector3d ℝ).y - (CRTBP.Earth : Vector2d ℝ).y) ^ 2))) ∧
      (-((⟨1.019, -0.008, 0.0⟩ : Vector3d ℝ).y - (CRTBP.Earth : Vector2d ℝ).y)
            / Real.sqrt (((⟨1.019, -0.008, 0.0⟩ : Vector3d ℝ).x - (CRTBP.Earth : Vector2d ℝ).x) ^ 2
              + ((⟨1.019, -0.008, 0.0⟩ : Vector3d ℝ).y - (CRTBP.Earth : Vector2d ℝ).y) ^ 2)) ^ 2
          + (((⟨1.019, -0.008, 0.0⟩ : Vector3d ℝ).x - (CRTBP.Earth : Vector2d ℝ).x)
            / Real.sqrt (((⟨1.019, -0.008, 0.0⟩ : Vector3d ℝ).x - (CRTBP.Earth : Vector2d ℝ).x) ^ 2
              + ((⟨1.019, -0.008, 0.0⟩ : Vector3d ℝ).y - (CRTBP.Earth : Vector2d ℝ).y) ^ 2)) ^ 2 = 1 ∧
      (-((⟨1.019, -0.008, 0.0⟩ : Vector3d ℝ).y - (CRTBP.Earth : Vector2d ℝ).y)
            / Real.sqrt (((⟨1.019, -0.008, 0.0⟩ : Vector3d ℝ).x - (CRTBP.Earth : Vector2d ℝ).x) ^ 2
              + ((⟨1.019, -0.008, 0.0⟩ : Vector3d ℝ).y - (CRTBP.Earth : Vector2d ℝ).y) ^ 2))
          * ((⟨1.019, -0.008, 0.0⟩ : Vector3d ℝ).x - (CRTBP.Earth : Vector2d ℝ).x)
        + (((⟨1.019, -0.008, 0.0⟩ : Vector3d ℝ).x - (CRTBP.Earth : Vector2d ℝ).x)
            / Real.sqrt (((⟨1.019, -0.008, 0.0⟩ : Vector3d ℝ).x - (CRTBP.Earth : Vector2d ℝ).x) ^ 2
              + ((⟨1.019, -0.008, 0.0⟩ : Vector3d ℝ).y - (CRTBP.Earth : Vector2d ℝ).y) ^ 2))
          * ((⟨1.019, -0.008, 0.0⟩ : Vector3d ℝ).y - (CRTBP.Earth : Vector2d ℝ).y) = 0) :=
  ⟨constructor_pick_ne_Earth,
    Pick_initial_velocity ⟨1.019, -0.008, 0.0⟩ constructor_pick_ne_Earth⟩

/-- The position `(0.48, 0)` is at neither body. -/
theorem awayFromBodies_axis_point : CRTBP.AwayFromBodies 0.48 0 := by
  constructor <;> intro h <;>
    · have hx := congrArg Vector2d.x h
      simp only [CRTBP.Sun, CRTBP.Earth, CRTBP.mu] at hx
      norm_num at hx

/-- At `(0.48, 0)` the target level `3.139855` is reachable: `2·PseudoPotential ≥ C`. -/
theorem level_reachable_axis_point :
    (3.139855 : ℝ) ≤ 2 * CRTBP.PseudoPotential (⟨0.48, 0⟩ : Vector2d ℝ) := by
  have e1 : Real.sqrt (0 * 0 + (-0.48 - CRTBP.mu + 1) ^ 2) = (0.5 : ℝ) := by
    rw [show (0 : ℝ) * 0 + (-0.48 - CRTBP.mu + 1) ^ 2 = 0.5 ^ 2 by norm_num [CRTBP.mu]]
    exact Real.sqrt_sq (by norm_num)
  have e2 : Real.sqrt (0 * 0 + (-0.48 - CRTBP.mu) ^ 2) = (0.5 : ℝ) := by
    rw [show (0 : ℝ) * 0 + (-0.48 - CRTBP.mu) ^ 2 = 0.5 ^ 2 by norm_num [CRTBP.mu]]
    exact Real.sqrt_sq (by norm_num)
  rw [CRTBP.PseudoPotential_real, e1, e2]
  norm_num [CRTBP.mu, CRTBP.omega]

/-- Instance of `Pick_initial_state_on_level` at the pick `(0.48, 0, 0)`. -/
theorem Pick_initial_state_on_level_witness :
    CRTBP.AwayFromBodies (⟨0.48, 0, 0⟩ : Vector3d ℝ).x (⟨0.48, 0, 0⟩ : Vector3d ℝ).y ∧
      (3.139855 : ℝ) ≤ 2 * CRTBP.PseudoPotential (⟨(⟨0.48, 0, 0⟩ : Vector3d ℝ).x, (⟨0.48, 0, 0⟩ : Vector3d ℝ).y⟩ : Vector2d ℝ) ∧
      2 * CRTBP.PseudoPotential
          (⟨(Pick.initialState (⟨0.48, 0, 0⟩ : Vector3d ℝ)).x, (Pick.initialState (⟨0.48, 0, 0⟩ : Vector3d ℝ)).y⟩ : Vector2d ℝ)
        - ((Pick.initialState (⟨0.48, 0, 0⟩ : Vector3d ℝ)).z ^ 2 + (Pick.initialState (⟨0.48, 0, 0⟩ : Vector3d ℝ)).w ^ 2) = 3.139855 ∧
      (Pick.initialState (⟨0.48, 0, 0⟩ : Vector3d ℝ)).z ^ 2 + (Pick.initialState (⟨0.48, 0, 0⟩ : Vector3d ℝ)).w ^ 2
        = Pick.vmag ⟨(⟨0.48, 0, 0⟩ : Vector3d ℝ).x, (⟨0.48, 0, 0⟩ : Vector3d ℝ).y⟩ ^ 2 :=
  ⟨awayFromBodies_axis_point, level_reachable_axis_point,
    Pick_initial_state_on_level ⟨0.48, 0, 0⟩ awayFromBodies_axis_point
      level_reachable_axis_point⟩

end Tracer

/-! ## C19: a body at rest feels the gradient of the pseudo potential -/

namespace CRTBP

/-- C19: for a position `(x, y)` at neither body, `Direction((x, y, 0, 0))` is
`(0, 0, gx, gy)` with `(gx, gy) = PseudoPotentialGrad((x, y))`; so at a root of
`PseudoPotentialGrad`, taken with zero velocity, `Direction` returns the zero vector. -/
theorem Direction_at_rest (x y : ℝ) (_h : AwayFromBodies x y) :
    Direction (⟨x, y, 0, 0⟩ : Vector4d ℝ) =
        ⟨0, 0, (PseudoPotentialGrad (⟨x, y⟩ : Vector2d ℝ)).x,
          (PseudoPotentialGrad (⟨x, y⟩ : Vector2d ℝ)).y⟩ ∧
      (PseudoPotentialGrad (⟨x, y⟩ : Vector2d ℝ) = ⟨0, 0⟩ →
        Direction (⟨x, y, 0, 0⟩ : Vector4d ℝ) = ⟨0, 0, 0, 0⟩) := by
  have hd : Direction (⟨x, y, 0, 0⟩ : Vector4d ℝ) =
      ⟨0, 0, (PseudoPotentialGrad (⟨x, y⟩ : Vector2d ℝ)).x,
        (PseudoPotentialGrad (⟨x, y⟩ : Vector2d ℝ)).y⟩ := by
    rw [PseudoPotentialGrad_eq_centrifugal_add_Acceleration]
    simp only [Direction, Vector2d.add, Vector2d.smul, Matrix2d.mulVec, Matrix2d.smul]
    ext
    · rfl
    · rfl
    · show _ = _
      ring
    · show _ = _
      ring
  refine ⟨hd, fun hg => ?_⟩
  rw [hd, hg]

/-- Instance of `Direction_at_rest` at the position `(0, 1)`. -/
theorem Direction_at_rest_witness :
    AwayFromBodies 0 1 ∧
      Direction (⟨0, 1, 0, 0⟩ : Vector4d ℝ) =
        ⟨0, 0, (PseudoPotentialGrad (⟨0, 1⟩ : Vector2d ℝ)).x,
          (PseudoPotentialGrad (⟨0, 1⟩ : Vector2d ℝ)).y⟩ ∧
      (PseudoPotentialGrad (⟨0, 1⟩ : Vector2d ℝ) = ⟨0, 0⟩ →
        Direction (⟨0, 1, 0, 0⟩ : Vector4d ℝ) = ⟨0, 0, 0, 0⟩) :=
  ⟨awayFromBodies_zero_one, Direction_at_rest 0 1 awayFromBodies_zero_one⟩

end CRTBP

/-! ## C14 and C17: the sampled field, over the reals -/

namespace JacobiConstant

/-- After the inner loop on row `j`, the cells `(i, j)` with `i < n` hold their new value
and every other cell is as before. -/
theorem foldl_setPixel_row (v : ℕ → ℝ) (j n : ℕ) (img : ℕ → ℕ → ℝ) (i0 j0 : ℕ) :
    ((List.range n).foldl (fun img i => setPixel img i j (v i)) img) i0 j0 =
      if i0 < n ∧ j0 = j then v i0 else img i0 j0 := by
  induction n with
  | zero => simp
  | succ n ih =>
    rw [List.range_succ, List.foldl_append, List.foldl_cons, List.foldl_nil]
    simp only [setPixel]
    by_cases h1 : i0 = n ∧ j0 = j
    · obtain ⟨hi, hj⟩ := h1
      subst hi hj
      simp
    · rw [if_neg h1, ih]
      by_cases h2 : i0 < n ∧ j0 = j
      · rw [if_pos h2, if_pos ⟨by omega, h2.2⟩]
      · rw [if_neg h2, if_neg]
        rintro ⟨h3, h4⟩
        rcases Nat.lt_succ_iff_lt_or_eq.mp h3 with h5 | h5
        · exact h2 ⟨h5, h4⟩
        · exact h1 ⟨h5, h4⟩

/-- After both loops, the cells `(i, j)` with `i < n` and `j < m` hold their new value and
every other cell is as before. -/
theorem foldl_setPixel_rows (v : ℕ → ℕ → ℝ) (n m : ℕ) (img : ℕ → ℕ → ℝ) (i0 j0 : ℕ) :
    ((List.range m).foldl
        (fun img j => (List.range n).foldl (fun img i => setPixel img i j (v i j)) img) img)
        i0 j0 =
      if i0 < n ∧ j0 < m then v i0 j0 else img i0 j0 := by
  induction m with
  | zero => simp
  | succ m ih =>
    rw [List.range_succ, List.foldl_append, List.foldl_cons, List.foldl_nil,
      foldl_setPixel_row (fun i => v i m), ih]
    by_cases h1 : i0 < n ∧ j0 = m
    · rw [if_pos h1, if_pos ⟨h1.1, by omega⟩, h1.2]
    · rw [if_neg h1]
      by_cases h2 : i0 < n ∧ j0 < m
      · rw [if_pos h2, if_pos ⟨h2.1, by omega⟩]
      · rw [if_neg h2, if_neg]
        rintro ⟨h3, h4⟩
        rcases Nat.lt_succ_iff_lt_or_eq.mp h4 with h5 | h5
        · exact h2 ⟨h3, h5⟩
        · exact h1 ⟨h3, h5⟩

/-- The value of every cell of the grid after `SampleField`. -/
theorem SampleField_cell (self : JacobiConstant ℝ) (i j : ℕ) (hi : i < 50) (hj : j < 50) :
    (SampleField self).m_imageData i j = CRTBP.JacobiConstant (SampleField.pos 50 i j) 0 := by
  have h := foldl_setPixel_rows
    (fun i j => CRTBP.JacobiConstant (SampleField.pos 50 i j : Vector2d ℝ) 0) 50 50
    self.m_imageData i j
  rw [if_pos ⟨hi, hj⟩] at h
  exact h

/-- The position sampled for the cell `(i, j)`, with the constants of the program. -/
theorem SampleField_pos (i j : ℕ) :
    (SampleField.pos 50 i j : Vector2d ℝ) = ⟨-2 + (i : ℝ) * 4 / 49, -2 + (j : ℝ) * 4 / 49⟩ := by
  simp only [SampleField.pos, X_MIN, X_MAX, Y_MIN, Y_MAX]
  norm_num

end JacobiConstant

namespace JacobiConstant

/-- C14: for grid indices `i, j` in `0..R−1`, `R = 50`, with the bounds
`xmin = ymin = −2`, `xmax = ymax = 2`, `SampleField` stores in the cell `(i, j)` the value
`JacobiConstant(pos, 0)` at `pos = (xmin + i·(xmax − xmin)/(R−1), ymin + j·(ymax − ymin)/(R−1))`;
the cell `(0, 0)` is sampled at `(xmin, ymin)` and the cell `(R−1, R−1)` at `(xmax, ymax)`. -/
theorem SampleField_samples_JacobiConstant (self : JacobiConstant ℝ) (i j : ℕ) (hi : i < 50)
    (hj : j < 50) :
    (SampleField self).m_imageData i j =
        CRTBP.JacobiConstant
          (⟨X_MIN + (i : ℝ) * (X_MAX - X_MIN) / (50 - 1),
            Y_MIN + (j : ℝ) * (Y_MAX - Y_MIN) / (50 - 1)⟩ : Vector2d ℝ) 0 ∧
      (X_MIN : ℝ) = -2 ∧ (X_MAX : ℝ) = 2 ∧ (Y_MIN : ℝ) = -2 ∧ (Y_MAX : ℝ) = 2 ∧
      (SampleField self).m_imageData 0 0
        = CRTBP.JacobiConstant (⟨X_MIN, Y_MIN⟩ : Vector2d ℝ) 0 ∧
      (SampleField self).m_imageData (50 - 1) (50 - 1)
        = CRTBP.JacobiConstant (⟨X_MAX, Y_MAX⟩ : Vector2d ℝ) 0 := by
  have hx : ∀ k : ℕ, (X_MIN : ℝ) + (k : ℝ) * (X_MAX - X_MIN) / (50 - 1) = -2 + (k : ℝ) * 4 / 49 := by
    intro k
    simp only [X_MIN, X_MAX]
    norm_num
  have hy : ∀ k : ℕ, (Y_MIN : ℝ) + (k : ℝ) * (Y_MAX - Y_MIN) / (50 - 1) = -2 + (k : ℝ) * 4 / 49 := by
    intro k
    simp only [Y_MIN, Y_MAX]
    norm_num
  refine ⟨?_, by norm_num [X_MIN], by norm_num [X_MAX], by norm_num [Y_MIN],
    by norm_num [Y_MAX], ?_, ?_⟩
  · rw [SampleField_cell self i j hi hj, SampleField_pos, hx, hy]
  · rw [SampleField_cell self 0 0 (by norm_num) (by norm_num), SampleField_pos]
    simp only [X_MIN, Y_MIN]
    norm_num
  · rw [SampleField_cell self (50 - 1) (50 - 1) (by norm_num) (by norm_num), SampleField_pos]
    simp only [X_MAX, Y_MAX]
    norm_num

/-- Instance of `SampleField_samples_JacobiConstant` on a grid of zeros, at the cell
`(3, 7)`. -/
theorem SampleField_samples_JacobiConstant_witness :
    3 < 50 ∧ 7 < 50 ∧
      (SampleField (⟨fun _ _ => 0⟩ : JacobiConstant ℝ)).m_imageData 3 7 =
        CRTBP.JacobiConstant
          (⟨X_MIN + ((3 : ℕ) : ℝ) * (X_MAX - X_MIN) / (50 - 1),
            Y_MIN + ((7 : ℕ) : ℝ) * (Y_MAX - Y_MIN) / (50 - 1)⟩ : Vector2d ℝ) 0 :=
  ⟨by norm_num, by norm_num,
    (SampleField_samples_JacobiConstant ⟨fun _ _ => 0⟩ 3 7 (by norm_num) (by norm_num)).1⟩

/-- The pseudo potential is even in `y`. -/
theorem PseudoPotential_even_y (x y : ℝ) :
    CRTBP.PseudoPotential (⟨x, -y⟩ : Vector2d ℝ) = CRTBP.PseudoPotential (⟨x, y⟩ : Vector2d ℝ) := by
  simp only [CRTBP.PseudoPotential, neg_mul_neg]

/-- C17: none of the 50×50 positions that `SampleField` samples is at a body: no sampled
ordinate is zero, the position is neither the Sun nor the Earth, and both square roots that
`PseudoPotential` divides by are non-zero there. -/
theorem SampleField_avoids_bodies (i j : ℕ) (_hi : i < 50) (_hj : j < 50) :
    (SampleField.pos 50 i j : Vector2d ℝ) = ⟨-2 + 4 * (i : ℝ) / 49, -2 + 4 * (j : ℝ) / 49⟩ ∧
      (SampleField.pos 50 i j : Vector2d ℝ).y ≠ 0 ∧
      (SampleField.pos 50 i j : Vector2d ℝ) ≠ CRTBP.Sun ∧
      (SampleField.pos 50 i j : Vector2d ℝ) ≠ CRTBP.Earth ∧
      DoubleMath.sqrt ((SampleField.pos 50 i j : Vector2d ℝ).y * (SampleField.pos 50 i j).y
        + DoubleMath.pow (-(SampleField.pos 50 i j : Vector2d ℝ).x - CRTBP.mu + 1) 2) ≠ 0 ∧
      DoubleMath.sqrt ((SampleField.pos 50 i j : Vector2d ℝ).y * (SampleField.pos 50 i j).y
        + DoubleMath.pow (-(SampleField.pos 50 i j : Vector2d ℝ).x - CRTBP.mu) 2) ≠ 0 := by
  have hy : (-2 : ℝ) + (j : ℝ) * 4 / 49 ≠ 0 := by
    intro h
    have h2 : (2 : ℝ) * (j : ℝ) = 49 := by linarith
    have h3 : 2 * j = 49 := by exact_mod_cast h2
    omega
  have hS : (⟨-2 + (i : ℝ) * 4 / 49, -2 + (j : ℝ) * 4 / 49⟩ : Vector2d ℝ) ≠ CRTBP.Sun :=
    fun h => hy (congrArg Vector2d.y h)
  have hE : (⟨-2 + (i : ℝ) * 4 / 49, -2 + (j : ℝ) * 4 / 49⟩ : Vector2d ℝ) ≠ CRTBP.Earth :=
    fun h => hy (congrArg Vector2d.y h)
  rw [SampleField_pos]
  refine ⟨by ext <;> (show _ = _) <;> ring, hy, hS, hE, ?_, ?_⟩
  · simp only [DoubleMath.sqrt_real, DoubleMath.pow_real, Real.rpow_two]
    exact (Real.sqrt_pos.mpr (CRTBP.earth_sq_dist_pos _ _ hE)).ne'
  · simp only [DoubleMath.sqrt_real, DoubleMath.pow_real, Real.rpow_two]
    exact (Real.sqrt_pos.mpr (CRTBP.sun_sq_dist_pos _ _ hS)).ne'

/-- Instance of `SampleField_avoids_bodies` at the cell `(24, 25)`, next to the axis. -/
theorem SampleField_avoids_bodies_witness :
    24 < 50 ∧ 25 < 50 ∧ (SampleField.pos 50 24 25 : Vector2d ℝ).y ≠ 0 ∧
      (SampleField.pos 50 24 25 : Vector2d ℝ) ≠ CRTBP.Sun ∧
      (SampleField.pos 50 24 25 : Vector2d ℝ) ≠ CRTBP.Earth :=
  ⟨by norm_num, by norm_num,
    (SampleField_avoids_bodies 24 25 (by norm_num) (by norm_num)).2.1,
    (SampleField_avoids_bodies 24 25 (by norm_num) (by norm_num)).2.2.1,
    (SampleField_avoids_bodies 24 25 (by norm_num) (by norm_num)).2.2.2.1⟩

end JacobiConstant

/-! ## C15: the mirror symmetry of the sampled field, in binary64 arithmetic -/

namespace Binary64

/-- Values of the binary64 operations at well-known arguments: `1 / 3`, `0.1 + 0.2`, the root
of `2`, a tie rounded down to an even significand and a tie rounded up to one. -/
theorem spot_checks :
    toRat (div (ofInt 1) (ofInt 3)) = 6004799503160661 / 2 ^ 54 ∧
      toRat (add (div (ofInt 1) (ofInt 10)) (div (ofInt 2) (ofInt 10)))
        = 5404319552844596 / 2 ^ 54 ∧
      toRat (sqrt (ofInt 2)) = 6369051672525773 / 2 ^ 52 ∧
      toRat (add (ofInt (2 ^ 53)) (ofInt 1)) = 2 ^ 53 ∧
      toRat (add (ofInt (2 ^ 53 + 2)) (ofInt 1)) = 2 ^ 53 + 4 := by
  decide!

/-- The test `same` is sound. -/
theorem same_eq {a b : Double} (h : same a b = true) : a = b := by
  obtain ⟨an, am, ad⟩ := a
  obtain ⟨bn, bm, bd⟩ := b
  simp only [same, Bool.and_eq_true, beq_iff_eq] at h
  obtain ⟨h1, h2, h3⟩ := h
  have h2 := Nat.eq_of_beq_eq_true h2
  have h3 := Nat.eq_of_beq_eq_true h3
  subst h1 h2 h3
  rfl

/-- The test `within` is sound. -/
theorem within_sound {k : ℕ} {a b : Double} (h : within k a b = true) :
    |toRat a - toRat b| ≤ 1 / 2 ^ k := by
  obtain ⟨an, x, d⟩ := a
  obtain ⟨bn, y, e⟩ := b
  simp only [within, Bool.and_eq_true, Bool.not_eq_true', Nat.ble_eq] at h
  obtain ⟨⟨ha, hb⟩, ⟨hd, he⟩, hle⟩ := h
  subst ha hb
  simp only [toRat, Bool.false_eq_true, if_false]
  have hd0 : (0 : ℚ) < (d : ℚ) := by exact_mod_cast hd
  have he0 : (0 : ℚ) < (e : ℚ) := by exact_mod_cast he
  have hk : (0 : ℚ) < 2 ^ k := by positivity
  have hcast : (((Nat.add (Nat.sub (Nat.mul x e) (Nat.mul y d))
      (Nat.sub (Nat.mul y d) (Nat.mul x e)) : ℕ) : ℚ)) = |(x : ℚ) * e - y * d| := by
    simp only [Nat.add_eq, Nat.sub_eq, Nat.mul_eq]
    rcases le_total (x * e) (y * d) with hxy | hxy
    · have h1 : ((x : ℚ) * e) ≤ y * d := by exact_mod_cast hxy
      rw [Nat.sub_eq_zero_of_le hxy, zero_add, abs_of_nonpos (by linarith), Nat.cast_sub hxy]
      push_cast
      ring
    · have h1 : ((y : ℚ) * d) ≤ x * e := by exact_mod_cast hxy
      rw [Nat.sub_eq_zero_of_le hxy, add_zero, abs_of_nonneg (by linarith), Nat.cast_sub hxy]
      push_cast
      ring
  have hle2 : |(x : ℚ) * e - y * d| * 2 ^ k ≤ d * e := by
    rw [← hcast]
    have h2 := hle
    simp only [Nat.mul_eq, Nat.pow_eq] at h2
    exact_mod_cast h2
  have hdiff : (x : ℚ) / d - y / e = (x * e - y * d) / (d * e) := by
    field_simp
    ring
  rw [hdiff, abs_div, abs_of_pos (mul_pos hd0 he0), div_le_div_iff₀ (mul_pos hd0 he0) hk]
  linarith

end Binary64

namespace CRTBP

/-- The constant `mu` is the `double` `0x1.47ae147ae147bp-6`. -/
theorem mu64_value : Binary64.toRat mu64 = 5764607523034235 / 2 ^ 58 := by
  decide!

/-- The pseudo potential is even in `y`, also in binary64 arithmetic: it reads `y` only
through the product `y * y`. -/
theorem PseudoPotential64_even_y (x y : Double) :
    PseudoPotential64 x (Binary64.neg y) = PseudoPotential64 x y := by
  have h : Binary64.mul (Binary64.neg y) (Binary64.neg y) = Binary64.mul y y := by
    cases hy : y.neg <;> simp [Binary64.mul, Binary64.neg, hy]
  simp only [PseudoPotential64, h]

end CRTBP

namespace JacobiConstant

/-- After the inner loop on row `j`, the cells `(i, j)` with `i < n` hold their new value
and every other cell is as before, in binary64 arithmetic. -/
theorem foldl_setPixel64_row (v : ℕ → Double) (j n : ℕ) (img : ℕ → ℕ → Double) (i0 j0 : ℕ) :
    ((List.range n).foldl (fun img i => setPixel64 img i j (v i)) img) i0 j0 =
      if i0 < n ∧ j0 = j then v i0 else img i0 j0 := by
  induction n with
  | zero => simp
  | succ n ih =>
    rw [List.range_succ, List.foldl_append, List.foldl_cons, List.foldl_nil]
    simp only [setPixel64]
    by_cases h1 : i0 = n ∧ j0 = j
    · obtain ⟨hi, hj⟩ := h1
      subst hi hj
      simp
    · rw [if_neg h1, ih]
      by_cases h2 : i0 < n ∧ j0 = j
      · rw [if_pos h2, if_pos ⟨by omega, h2.2⟩]
      · rw [if_neg h2, if_neg]
        rintro ⟨h3, h4⟩
        rcases Nat.lt_succ_iff_lt_or_eq.mp h3 with h5 | h5
        · exact h2 ⟨h5, h4⟩
        · exact h1 ⟨h5, h4⟩

/-- After both loops, the cells `(i, j)` with `i < n` and `j < m` hold their new value and
every other cell is as before, in binary64 arithmetic. -/
theorem foldl_setPixel64_rows (v : ℕ → ℕ → Double) (n m : ℕ) (img : ℕ → ℕ → Double)
    (i0 j0 : ℕ) :
    ((List.range m).foldl
        (fun img j => (List.range n).foldl (fun img i => setPixel64 img i j (v i j)) img) img)
        i0 j0 =
      if i0 < n ∧ j0 < m then v i0 j0 else img i0 j0 := by
  induction m with
  | zero => simp
  | succ m ih =>
    rw [List.range_succ, List.foldl_append, List.foldl_cons, List.foldl_nil,
      foldl_setPixel64_row (fun i => v i m), ih]
    by_cases h1 : i0 < n ∧ j0 = m
    · rw [if_pos h1, if_pos ⟨h1.1, by omega⟩, h1.2]
    · rw [if_neg h1]
      by_cases h2 : i0 < n ∧ j0 < m
      · rw [if_pos h2, if_pos ⟨h2.1, by omega⟩]
      · rw [if_neg h2, if_neg]
        rintro ⟨h3, h4⟩
        rcases Nat.lt_succ_iff_lt_or_eq.mp h4 with h5 | h5
        · exact h2 ⟨h3, h5⟩
        · exact h1 ⟨h3, h5⟩

/-- The value of every cell of the grid after `SampleField`, in binary64 arithmetic. -/
theorem SampleField64_cell (img : ℕ → ℕ → Double) (i j : ℕ) (hi : i < 50) (hj : j < 50) :
    SampleField64 img i j =
      CRTBP.JacobiConstant64 (SampleField.x64 50 i) (SampleField.y64 50 j)
        (Binary64.ofInt 0) := by
  have h := foldl_setPixel64_rows
    (fun i j =>
      CRTBP.JacobiConstant64 (SampleField.x64 50 i) (SampleField.y64 50 j) (Binary64.ofInt 0))
    50 50 img i j
  rw [if_pos ⟨hi, hj⟩] at h
  exact h

/-- The rows whose computed ordinate is not the negative of the ordinate computed for the
mirror row: 22 of the 50. -/
theorem SampleField_mirror_rows :
    (List.range 50).filter
        (fun j => decide (Binary64.toRat (SampleField.y64 50 (50 - 1 - j))
          ≠ -Binary64.toRat (SampleField.y64 50 j))) =
      [2, 3, 7, 12, 13, 16, 17, 18, 21, 22, 23, 26, 27, 28, 31, 32, 33, 36, 37, 42, 46, 47] := by
  decide!

/-- In the lower half of the grid, every row either has the ordinate of its mirror row
negated, or all its cells are within `2^-45` of their mirror cells: by evaluation of the
binary64 arithmetic. -/
theorem SampleField_mirror_check :
    ∀ i, i < 50 → ∀ j, j < 25 →
      (SampleField.mirrorRow j || SampleField.mirrorClose i j) = true := by
  decide!

/-- Mirror cells of equal computed ordinates, up to the sign, hold the same value. -/
theorem SampleField64_mirror_of_neg (img : ℕ → ℕ → Double) (i j : ℕ) (hi : i < 50)
    (hj : j < 50)
    (h : SampleField.y64 50 (50 - 1 - j) = Binary64.neg (SampleField.y64 50 j)) :
    SampleField64 img i j = SampleField64 img i (50 - 1 - j) := by
  rw [SampleField64_cell img i j hi hj, SampleField64_cell img i (50 - 1 - j) hi (by omega), h]
  simp only [CRTBP.JacobiConstant64, CRTBP.PseudoPotential64_even_y]

/-- Mirror cells are within `2^-45` of each other, for the rows of the lower half. -/
theorem SampleField64_mirror_lower (img : ℕ → ℕ → Double) (i j : ℕ) (hi : i < 50)
    (hj : j < 25) :
    |Binary64.toRat (SampleField64 img i j) - Binary64.toRat (SampleField64 img i (50 - 1 - j))|
      ≤ 1 / 2 ^ 45 := by
  have h := SampleField_mirror_check i hi j hj
  rw [Bool.or_eq_true] at h
  rcases h with h | h
  · rw [SampleField64_mirror_of_neg img i j hi (by omega) (Binary64.same_eq h), sub_self,
      abs_zero]
    positivity
  · rw [SampleField64_cell img i j hi (by omega),
      SampleField64_cell img i (50 - 1 - j) hi (by omega)]
    exact Binary64.within_sound h

/-- Mirror cells are within `2^-45` of each other. -/
theorem SampleField64_mirror (img : ℕ → ℕ → Double) (i j : ℕ) (hi : i < 50) (hj : j < 50) :
    |Binary64.toRat (SampleField64 img i j) - Binary64.toRat (SampleField64 img i (50 - 1 - j))|
      ≤ 1 / 2 ^ 45 := by
  by_cases h : j < 25
  · exact SampleField64_mirror_lower img i j hi h
  · have h1 := SampleField64_mirror_lower img i (50 - 1 - j) hi (by omega)
    have h2 : 50 - 1 - (50 - 1 - j) = j := by omega
    rw [h2, abs_sub_comm] at h1
    exact h1

/-- The ordinates computed for mirror rows are negatives of each other up to `2^-52`. -/
theorem SampleField64_ordinates :
    ∀ j, j < 50 →
      |Binary64.toRat (SampleField.y64 50 (50 - 1 - j)) + Binary64.toRat (SampleField.y64 50 j)|
        ≤ 1 / 2 ^ 52 := by
  decide!

/-- The bound `2^-45` is attained, at the cell `(24, 26)` and its mirror cell `(24, 23)`. -/
theorem SampleField64_mirror_bound_attained :
    Binary64.toRat (SampleField64 (fun _ _ => Binary64.ofInt 0) 24 (50 - 1 - 26))
      - Binary64.toRat (SampleField64 (fun _ _ => Binary64.ofInt 0) 24 26) = 1 / 2 ^ 45 := by
  rw [SampleField64_cell _ 24 26 (by norm_num) (by norm_num),
    SampleField64_cell _ 24 (50 - 1 - 26) (by norm_num) (by norm_num)]
  decide!

/-- Counterexample to C15 as stated, in binary64 arithmetic: on a grid of zeros `SampleField`
stores `0x1.f54b40886b707p+2` in the cell `(0, 3)` and `0x1.f54b40886b709p+2` in its mirror cell
`(0, 46)`, which are not equal; the ordinate computed for the row `3` is
`-0x1.c14e5e0a72f05p+0` and the one computed for the row `46` is `0x1.c14e5e0a72f06p+0`, which
is not its negative. -/
theorem SampleField_mirror_symmetric_counterexample :
    Binary64.toRat (SampleField64 (fun _ _ => Binary64.ofInt 0) 0 3)
        = 8818856491923207 / 2 ^ 50 ∧
      Binary64.toRat (SampleField64 (fun _ _ => Binary64.ofInt 0) 0 (50 - 1 - 3))
        = 8818856491923209 / 2 ^ 50 ∧
      Binary64.toRat (SampleField64 (fun _ _ => Binary64.ofInt 0) 0 3)
        ≠ Binary64.toRat (SampleField64 (fun _ _ => Binary64.ofInt 0) 0 (50 - 1 - 3)) ∧
      Binary64.toRat (SampleField.y64 50 3) = -(7904276897017605 / 2 ^ 52) ∧
      Binary64.toRat (SampleField.y64 50 (50 - 1 - 3)) = 7904276897017606 / 2 ^ 52 ∧
      Binary64.toRat (SampleField.y64 50 (50 - 1 - 3))
        ≠ -Binary64.toRat (SampleField.y64 50 3) := by
  rw [SampleField64_cell _ 0 3 (by norm_num) (by norm_num),
    SampleField64_cell _ 0 (50 - 1 - 3) (by norm_num) (by norm_num)]
  decide!

/-- C15, amended: the sampled grid is mirror-symmetric across `y = 0` up to rounding.  For
`i, j` in `0..R−1`, `R = 50`: in binary64 arithmetic the values that `SampleField` stores in the
cells `(i, j)` and `(i, R−1−j)` differ by at most `2^-45`, and they are equal whenever the
ordinate computed for the row `R−1−j` is the negative of the one computed for the row `j`; the
two computed ordinates are negatives of each other up to `2^-52`; `PseudoPotential` is even in
`y`, also in binary64 arithmetic; and in exact real arithmetic the two cells hold the same
value. -/
theorem SampleField_mirror_symmetric_up_to_rounding (img : ℕ → ℕ → Double)
    (self : JacobiConstant ℝ) (i j : ℕ) (hi : i < 50) (hj : j < 50) :
    |Binary64.toRat (SampleField64 img i j) - Binary64.toRat (SampleField64 img i (50 - 1 - j))|
        ≤ 1 / 2 ^ 45 ∧
      (SampleField.y64 50 (50 - 1 - j) = Binary64.neg (SampleField.y64 50 j) →
        SampleField64 img i j = SampleField64 img i (50 - 1 - j)) ∧
      |Binary64.toRat (SampleField.y64 50 (50 - 1 - j)) + Binary64.toRat (SampleField.y64 50 j)|
        ≤ 1 / 2 ^ 52 ∧
      (∀ x y : Double,
        CRTBP.PseudoPotential64 x (Binary64.neg y) = CRTBP.PseudoPotential64 x y) ∧
      (SampleField self).m_imageData i j = (SampleField self).m_imageData i (50 - 1 - j) := by
  have hc : ((50 - 1 - j : ℕ) : ℝ) = 49 - (j : ℝ) := by
    have h49 : 50 - 1 - j = 49 - j := by omega
    rw [h49, Nat.cast_sub (by omega)]
    norm_num
  have hy : (-2 : ℝ) + ((50 - 1 - j : ℕ) : ℝ) * 4 / 49 = -(-2 + (j : ℝ) * 4 / 49) := by
    rw [hc]
    ring
  refine ⟨SampleField64_mirror img i j hi hj, SampleField64_mirror_of_neg img i j hi hj,
    SampleField64_ordinates j hj, CRTBP.PseudoPotential64_even_y, ?_⟩
  rw [SampleField_cell self i j hi hj, SampleField_cell self i (50 - 1 - j) hi (by omega),
    SampleField_pos, SampleField_pos, hy]
  simp only [CRTBP.JacobiConstant, PseudoPotential_even_y]

/-- Instance of `SampleField_mirror_symmetric_up_to_rounding` on grids of zeros, at the cell
`(24, 26)`, where the two values differ by `2^-45`. -/
theorem SampleField_mirror_symmetric_up_to_rounding_witness :
    24 < 50 ∧ 26 < 50 ∧
      |Binary64.toRat (SampleField64 (fun _ _ => Binary64.ofInt 0) 24 26)
          - Binary64.toRat (SampleField64 (fun _ _ => Binary64.ofInt 0) 24 (50 - 1 - 26))|
        ≤ 1 / 2 ^ 45 :=
  ⟨by norm_num, by norm_num,
    (SampleField_mirror_symmetric_up_to_rounding (fun _ _ => Binary64.ofInt 0)
      ⟨fun _ _ => 0⟩ 24 26 (by norm_num) (by norm_num)).1⟩

end JacobiConstant

/-! ## C16: the radius array after a pick -/

namespace Tracer

/-- The radius the loop of `Pick` writes at index `i` of an array of `n` values. -/
theorem radii_scalar (n i : ℕ) :
    (0.002 : ℝ) + ((MaxRadius : ℝ) - 0.002) * ((i : ℝ) / (((n : ℤ) - 1 : ℤ) : ℝ))
      = 0.002 + (0.01 - 0.002) * (i : ℝ) / ((n : ℝ) - 1) := by
  simp only [MaxRadius]
  push_cast
  ring

/-- The radius loop of `Pick`, started at the counter `i` with `m` passes to go and fuel for
them, keeps the length of the array, writes every index from `i` on and leaves the indices
before `i`. -/
theorem radii_getElem (n m : ℕ) :
    ∀ (fuel i : ℕ) (arr : List ℝ), i + m = n → m ≤ fuel → arr.length = n →
      (Pick.radii n fuel i arr).length = n ∧
        ∀ k, (Pick.radii n fuel i arr)[k]? =
          if i ≤ k ∧ k < n then some (0.002 + (0.01 - 0.002) * (k : ℝ) / ((n : ℝ) - 1))
          else arr[k]? := by
  induction m with
  | zero =>
    intro fuel i arr hi _ hlen
    have hlt : ¬ i < n := by omega
    have hr : Pick.radii n fuel i arr = arr := by
      cases fuel with
      | zero => simp [Pick.radii]
      | succ fuel => simp [Pick.radii, hlt]
    rw [hr]
    refine ⟨hlen, fun k => ?_⟩
    rw [if_neg (by omega)]
  | succ m ih =>
    intro fuel i arr hi hf hlen
    have hlt : i < n := by omega
    cases fuel with
    | zero => omega
    | succ fuel =>
      have hr : Pick.radii n (fuel + 1) i arr = Pick.radii n fuel (i + 1)
          (arr.set i (0.002 + (0.01 - 0.002) * (i : ℝ) / ((n : ℝ) - 1))) := by
        rw [Pick.radii]
        simp only [hlt, if_true, radii_scalar]
      rw [hr]
      obtain ⟨h1, h2⟩ := ih fuel (i + 1)
        (arr.set i (0.002 + (0.01 - 0.002) * (i : ℝ) / ((n : ℝ) - 1))) (by omega) (by omega)
        (by rw [List.length_set]; exact hlen)
      refine ⟨h1, fun k => ?_⟩
      rw [h2 k]
      by_cases hk : k = i
      · subst hk
        rw [if_neg (by omega), if_pos ⟨le_refl _, hlt⟩, List.getElem?_set_self (by omega)]
      · rw [List.getElem?_set_ne (fun h => hk h.symm)]
        by_cases hc : i + 1 ≤ k ∧ k < n
        · rw [if_pos hc, if_pos ⟨by omega, hc.2⟩]
        · rw [if_neg hc, if_neg (by omega)]

/-- The array after `SetNumberOfValues(n)` has `n` values. -/
theorem length_setNumberOfValues (n : ℕ) (arr : List ℝ) :
    (setNumberOfValues n arr).length = n := by
  simp only [setNumberOfValues, List.length_append, List.length_take, List.length_replicate]
  omega

/-- The radius array after `Pick`, whatever it was before. -/
theorem Pick_radiusArray (tr : Tracer ℝ) (pnt : Vector3d ℝ) :
    (Pick tr pnt).radiusArray =
      (List.range NumIntegrationSteps).map fun (i : ℕ) =>
        (0.002 : ℝ) + (0.01 - 0.002) * (i : ℝ) / ((NumIntegrationSteps : ℝ) - 1) := by
  have hr : (Pick tr pnt).radiusArray =
      Pick.radii (Pick tr pnt).points.length (Pick tr pnt).points.length 0
        (setNumberOfValues (Pick tr pnt).points.length tr.radiusArray) := rfl
  rw [hr, Pick_points_length]
  obtain ⟨h1, h2⟩ := radii_getElem NumIntegrationSteps NumIntegrationSteps NumIntegrationSteps 0
    (setNumberOfValues NumIntegrationSteps tr.radiusArray) (by omega) (le_refl _)
    (length_setNumberOfValues _ _)
  apply List.ext_getElem?
  intro k
  rw [h2 k, List.getElem?_map]
  by_cases hk : k < NumIntegrationSteps
  · rw [if_pos ⟨Nat.zero_le _, hk⟩, List.getElem?_range hk]
    rfl
  · rw [if_neg (by omega)]
    have hlen := length_setNumberOfValues NumIntegrationSteps tr.radiusArray
    rw [List.getElem?_eq_none (by omega), List.getElem?_eq_none (by simp; omega)]
    rfl

end Tracer

namespace Tracer

/-- C16: after `Pick`, whatever the tracer held before, the radius array has the length `n`
of the new position sequence and its value at every index `i` in `0..n−1` is
`min + (max − min)·i/(n−1)` with `min = 0.002` and `max = 0.01`: the first value is the
minimum radius, the last is the maximum radius, and the array does not depend on the
earlier state of the tracer. -/
theorem Pick_radiusArray_recomputed (tr : Tracer ℝ) (pnt : Vector3d ℝ) (i : ℕ)
    (hi : i < (Pick tr pnt).points.length) :
    (Pick tr pnt).radiusArray.length = (Pick tr pnt).points.length ∧
      (Pick tr pnt).radiusArray[i]? =
        some (0.002 + (0.01 - 0.002) * (i : ℝ) / (((Pick tr pnt).points.length : ℝ) - 1)) ∧
      (Pick tr pnt).radiusArray[0]? = some (0.002 : ℝ) ∧
      (Pick tr pnt).radiusArray[(Pick tr pnt).points.length - 1]? = some (0.01 : ℝ) ∧
      (∀ tr0 : Tracer ℝ, (Pick tr0 pnt).radiusArray = (Pick tr pnt).radiusArray) := by
  rw [Pick_points_length] at hi ⊢
  have hN : (NumIntegrationSteps : ℝ) = 1000 := by
    unfold NumIntegrationSteps
    norm_num
  have h0 : 0 < NumIntegrationSteps := by omega
  have hl : NumIntegrationSteps - 1 < NumIntegrationSteps := by omega
  have hc : ((NumIntegrationSteps - 1 : ℕ) : ℝ) = 999 := by
    rw [Nat.cast_sub (by omega), hN]
    norm_num
  refine ⟨?_, ?_, ?_, ?_, fun tr0 => ?_⟩
  · rw [Pick_radiusArray, List.length_map, List.length_range]
  · rw [Pick_radiusArray, List.getElem?_map, List.getElem?_range hi]
    rfl
  · rw [Pick_radiusArray, List.getElem?_map, List.getElem?_range h0]
    simp only [Option.map_some', Nat.cast_zero, mul_zero, zero_div, add_zero]
  · rw [Pick_radiusArray, List.getElem?_map, List.getElem?_range hl]
    simp only [Option.map_some', hc, hN]
    norm_num
  · rw [Pick_radiusArray, Pick_radiusArray]

/-- Instance of `Pick_radiusArray_recomputed` for a tracer that was constructed and updated
once, then picked at `(0.48, 0, 0)`, at the index `5`. -/
theorem Pick_radiusArray_recomputed_witness :
    5 < (Pick (Update (new : Tracer ℝ)) ⟨0.48, 0, 0⟩).points.length ∧
      (Pick (Update (new : Tracer ℝ)) ⟨0.48, 0, 0⟩).radiusArray.length
        = (Pick (Update (new : Tracer ℝ)) ⟨0.48, 0, 0⟩).points.length ∧
      (Pick (Update (new : Tracer ℝ)) ⟨0.48, 0, 0⟩).radiusArray[5]? =
        some (0.002 + (0.01 - 0.002) * ((5 : ℕ) : ℝ)
          / (((Pick (Update (new : Tracer ℝ)) ⟨0.48, 0, 0⟩).points.length : ℝ) - 1)) ∧
      (Pick (Update (new : Tracer ℝ)) ⟨0.48, 0, 0⟩).radiusArray[0]? = some (0.002 : ℝ) ∧
      (Pick (Update (new : Tracer ℝ)) ⟨0.48, 0, 0⟩).radiusArray[(Pick (Update (new : Tracer ℝ)) ⟨0.48, 0, 0⟩).points.length - 1]?
        = some (0.01 : ℝ) ∧
      (∀ tr0 : Tracer ℝ, (Pick tr0 ⟨0.48, 0, 0⟩).radiusArray
        = (Pick (Update (new : Tracer ℝ)) ⟨0.48, 0, 0⟩).radiusArray) :=
  have hlen : 5 < (Pick (Update (new : Tracer ℝ)) ⟨0.48, 0, 0⟩).points.length := by
    rw [Pick_points_length]
    unfold NumIntegrationSteps
    norm_num
  ⟨hlen, Pick_radiusArray_recomputed (Update new) ⟨0.48, 0, 0⟩ 5 hlen⟩

end Tracer
